import Mathlib

/-!
Verification of the URL shortener with Huffman encoding (`URL.py`).

This file shallowly embeds the program: Python strings become `List Char`,
Python dicts become association lists with insert-or-overwrite semantics
(`dictSet`) that preserve insertion order exactly as CPython dicts do, and
fallible operations return `Except Unit`.  The `heapq` priority queue used by
`_build_huffman_tree` is modelled by the exact sift-up/sift-down algorithms of
CPython's `heapq` module, specialised to `HuffmanNode.__lt__` (comparison on
`freq` only).  The `hashlib.sha256` digest and the `random.choices` suffix
are external collaborators (stdlib, not repository code); they are passed in
as an explicit environment `Env`, matching the spec's "entropy source" and
"hash function" capabilities.  `base64.urlsafe_b64encode` is modelled
bit-exactly; `base64.urlsafe_b64decode` is modelled by the scan loop of
CPython's non-strict `binascii.a2b_base64`, so it reproduces the lenient
behaviour on malformed text (stray characters are skipped, data after
complete padding is ignored) as well as the `binascii.Error` cases.

The embedding follows `URL.py` (the primary implementation with the demo
driver); `_URL.py` is an alternate draft of the same class.
-/

/-! ## Python dict as an insertion-ordered association list -/

/-- Lookup in an association list: first entry whose key matches.
For lists built with `dictSet` keys are unique, so this agrees with
CPython dict lookup. -/
def dlookup [DecidableEq α] (k : α) : List (α × β) → Option β
  | [] => none
  | (k', v) :: rest => if k' = k then some v else dlookup k rest

/-- CPython dict assignment `d[k] = v`: if the key exists its value is
replaced in place (insertion position kept), otherwise the pair is appended. -/
def dictSet [DecidableEq α] (d : List (α × β)) (k : α) (v : β) : List (α × β) :=
  if (dlookup k d).isSome then
    d.map (fun p => if p.1 = k then (k, v) else p)
  else
    d ++ [(k, v)]

/-- Build a dict from a list of assignments in order (dict comprehension /
repeated `d[k] = v`). -/
def dictFromList [DecidableEq α] (l : List (α × β)) : List (α × β) :=
  l.foldl (fun d p => dictSet d p.1 p.2) []

/-! ## Bit strings and byte strings

Python `int(s, 2)`, `v.to_bytes(n, 'big')`, `int.from_bytes(b, 'big')`,
`bin(v)[2:]` and `str.zfill`. -/

/-- The character of one bit. -/
def bitChar (v : Nat) : Char := if v = 1 then '1' else '0'

/-- Is the character a binary digit. -/
def isBit (c : Char) : Bool := c = '0' || c = '1'

/-- Numeric value of one bit character. -/
def bitVal (c : Char) : Nat := if c = '1' then 1 else 0

/-- Value of a big-endian binary string: the computation done by
`int(s, 2)` on a string of '0'/'1'. -/
def parseBin (s : List Char) : Nat := s.foldl (fun a c => 2 * a + bitVal c) 0

/-- `int(s, 2)`: raises `ValueError` on the empty string or on characters
that are not binary digits (the only failure modes reachable here). -/
def parseBinE (s : List Char) : Except Unit Nat :=
  if s ≠ [] ∧ s.all isBit then .ok (parseBin s) else .error ()

/-- The `n` low bits of `v`, most significant first (fixed width). -/
def natBits : Nat → Nat → List Char
  | 0, _ => []
  | n + 1, v => natBits n (v / 2) ++ [bitChar (v % 2)]

/-- Binary digits of `v` without leading zeros, by repeated division;
`fuel` bounds the recursion depth (any `fuel > v` is enough). -/
def binAux : Nat → Nat → List Char
  | 0, _ => []
  | fuel + 1, v => if v < 2 then [bitChar v] else binAux fuel (v / 2) ++ [bitChar (v % 2)]

/-- Python `bin(v)[2:]`: minimal binary representation, `"0"` for zero. -/
def natToBin (v : Nat) : List Char := binAux (v + 1) v

/-- Python `str.zfill(n)`: left-pad with '0' to length `n` (never truncates). -/
def zfill (s : List Char) (n : Nat) : List Char := List.replicate (n - s.length) '0' ++ s

/-- Python `v.to_bytes(n, byteorder='big')`.  (`OverflowError` for
`v ≥ 256 ^ n` is unreachable at the call site, see `parseBin_lt`.) -/
def toBytesBE : Nat → Nat → List Nat
  | 0, _ => []
  | n + 1, v => toBytesBE n (v / 256) ++ [v % 256]

/-- Python `int.from_bytes(bs, byteorder='big')`. -/
def fromBytesBE (bs : List Nat) : Nat := bs.foldl (fun a b => 256 * a + b) 0

/-! ## URL-safe base64 (`base64.urlsafe_b64encode` / `urlsafe_b64decode`) -/

/-- The URL-safe base64 alphabet. -/
def b64chars : List Char :=
  "ABCDEFGHIJKLMNOPQRSTUVWXYZabcdefghijklmnopqrstuvwxyz0123456789-_".toList

/-- Character for a 6-bit value. -/
def alpha (v : Nat) : Char := b64chars.getD v 'A'

/-- 6-bit value of an alphabet character, `none` for a character outside the
alphabet. -/
def alphaVal (c : Char) : Option Nat := b64chars.findIdx? (fun x => x = c)

/-- `base64.urlsafe_b64encode` on a byte string: groups of three bytes become
four characters; a final group of one or two bytes is padded with `'='`. -/
def b64encode : List Nat → List Char
  | [] => []
  | [a] => [alpha (a / 4), alpha (a % 4 * 16), '=', '=']
  | [a, b] => [alpha (a / 4), alpha (a % 4 * 16 + b / 16), alpha (b % 16 * 4), '=']
  | a :: b :: c :: rest =>
    alpha (a / 4) :: alpha (a % 4 * 16 + b / 16) :: alpha (b % 16 * 4 + c / 64) ::
      alpha (c % 64) :: b64encode rest

/-- 6-bit value of a character under `urlsafe_b64decode`.  The urlsafe
translation only maps `'-'` and `'_'` onto `'+'` and `'/'` before the standard
`table_a2b_base64` is consulted, so both pairs are accepted; any other
character outside the alphabet yields `none` and is skipped by the non-strict
decoder.  (`_decompress` passes `compressed_str.encode()`, so a non-ASCII
character contributes only UTF-8 bytes `≥ 0x80`, none of which is in the
table: skipping the whole character is exact.) -/
def b64charVal (c : Char) : Option Nat :=
  if c = '+' then some 62 else if c = '/' then some 63 else alphaVal c

/-- The scan loop of CPython's `binascii.a2b_base64` with `strict_mode=False`
(`Modules/binascii.c`), which `base64.b64decode` calls: `quad_pos` counts data
characters mod 4, `leftchar` holds their leftover bits, `pads` counts the
padding characters seen since the last data character.  A `'='` at
`quad_pos ≥ 2` that completes a quad (`quad_pos + pads ≥ 4`) stops the scan
and returns the bytes emitted so far (anything after it is ignored); a `'='`
at `quad_pos < 2` and any character outside the alphabet are skipped.  A scan
that ends mid-quad raises `binascii.Error`, modelled as `.error ()`. -/
def a2bBase64 : List Char → Nat → Nat → Nat → List Nat → Except Unit (List Nat)
  | [], quad_pos, _, _, acc => if quad_pos = 0 then .ok acc else .error ()
  | c :: rest, quad_pos, leftchar, pads, acc =>
    if c = '=' then
      if 2 ≤ quad_pos then
        if 4 ≤ quad_pos + (pads + 1) then .ok acc
        else a2bBase64 rest quad_pos leftchar (pads + 1) acc
      else a2bBase64 rest quad_pos leftchar pads acc
    else
      match b64charVal c with
      | none => a2bBase64 rest quad_pos leftchar pads acc
      | some v =>
        if quad_pos = 0 then a2bBase64 rest 1 v 0 acc
        else if quad_pos = 1 then
          a2bBase64 rest 2 (v % 16) 0 (acc ++ [leftchar * 4 + v / 16])
        else if quad_pos = 2 then
          a2bBase64 rest 3 (v % 4) 0 (acc ++ [leftchar * 16 + v / 4])
        else a2bBase64 rest 0 0 0 (acc ++ [leftchar * 64 + v])

/-- `base64.urlsafe_b64decode` on the UTF-8 bytes of the string
(`_decompress` passes `compressed_str.encode()`): non-strict, so stray
characters are skipped and data after complete padding is dropped;
`binascii.Error` is raised exactly when the data characters end mid-quad.
On outputs of `b64encode` it is the exact inverse (`b64decode_encode`). -/
def b64decodeE (s : List Char) : Except Unit (List Nat) :=
  a2bBase64 s 0 0 0 []

/-! ## Huffman nodes and CPython's `heapq`

`HuffmanNode` from `URL.py`: leaves carry a character (`char` truthy) and a
count; internal nodes are created with `char = ''` and always receive both
children.  `__lt__` compares `freq` only. -/

/-- A Huffman tree node as constructed by `_build_huffman_tree`. -/
inductive HNode where
  | leaf (char : Char) (freq : Nat)
  | internal (freq : Nat) (left right : HNode)
deriving DecidableEq

/-- The `freq` field. -/
def HNode.freq : HNode → Nat
  | .leaf _ f => f
  | .internal f _ _ => f

/-- `HuffmanNode.__lt__`: comparison on `freq` only. -/
def hlt (a b : HNode) : Bool := a.freq < b.freq

/-- Default node for in-bounds list indexing (never read out of bounds). -/
def hdflt : HNode := .leaf 'A' 0

/-- The loop of CPython's `heapq._siftdown(heap, startpos, pos)`, entered with
`newitem = heap[pos]`: while `pos > startpos`, move the parent down if
`newitem < parent`, else stop; finally write `newitem`.  `fuel` bounds the
iteration count; `pos` strictly decreases each iteration, so any
`fuel > pos` reproduces the loop exactly. -/
def siftdownLoop : Nat → List HNode → Nat → Nat → HNode → List HNode
  | 0, heap, _, pos, newitem => heap.set pos newitem
  | fuel + 1, heap, startpos, pos, newitem =>
    if startpos < pos then
      let parentpos := (pos - 1) / 2
      let parent := heap.getD parentpos hdflt
      if hlt newitem parent then
        siftdownLoop fuel (heap.set pos parent) startpos parentpos newitem
      else heap.set pos newitem
    else heap.set pos newitem

/-- CPython's `heapq.heappush`: append, then sift down from the last slot. -/
def heappush (heap : List HNode) (item : HNode) : List HNode :=
  siftdownLoop (heap.length + 1) (heap ++ [item]) 0 heap.length item

/-- The loop of CPython's `heapq._siftup(heap, pos)`, entered with
`newitem = heap[pos]`: walk down along the smaller child, shifting children
up; at a leaf write `newitem` and sift it down towards `startpos`.  `fuel`
bounds the iteration count; `pos` strictly increases below `heap.length`, so
any `fuel ≥ heap.length` reproduces the loop exactly. -/
def siftupLoop (startpos : Nat) : Nat → List HNode → Nat → HNode → List HNode
  | 0, heap, pos, newitem => siftdownLoop (pos + 1) (heap.set pos newitem) startpos pos newitem
  | fuel + 1, heap, pos, newitem =>
    let endpos := heap.length
    let childpos := 2 * pos + 1
    if childpos < endpos then
      let rightpos := childpos + 1
      let childpos :=
        if rightpos < endpos && !(hlt (heap.getD childpos hdflt) (heap.getD rightpos hdflt)) then
          rightpos
        else childpos
      siftupLoop startpos fuel (heap.set pos (heap.getD childpos hdflt)) childpos newitem
    else siftdownLoop (pos + 1) (heap.set pos newitem) startpos pos newitem

/-- CPython's `heapq.heappop`: pop the last element; if the heap is still
non-empty, put it at the root and sift up, returning the old root.  Popping
an empty heap raises `IndexError` (`none`). -/
def heappop (heap : List HNode) : Option (HNode × List HNode) :=
  match heap.getLast? with
  | none => none
  | some lastelt =>
    match heap.dropLast with
    | [] => some (lastelt, [])
    | r0 :: rest =>
      let h1 := (r0 :: rest).set 0 lastelt
      some (r0, siftupLoop 0 h1.length h1 0 lastelt)

/-- The `while len(heap) > 1` merge loop of `_build_huffman_tree`: pop the two
lowest-frequency nodes, merge them into an internal node (first popped is the
left/'0' child), push the merge.  `fuel` bounds the iteration count; the heap
shrinks by one per iteration, so `fuel ≥ len(heap)` reproduces the loop. -/
def mergeLoop : Nat → List HNode → List HNode
  | 0, heap => heap
  | fuel + 1, heap =>
    if heap.length > 1 then
      match heappop heap with
      | none => heap
      | some (left, h1) =>
        match heappop h1 with
        | none => h1
        | some (right, h2) =>
          mergeLoop fuel (heappush h2 (.internal (left.freq + right.freq) left right))
    else heap

/-! ## Frequency table (`collections.Counter`) -/

/-- One step of counting: bump an existing key in place or append a new one
with count 1.  CPython `Counter` iterates keys in first-occurrence order. -/
def incr (acc : List (Char × Nat)) (c : Char) : List (Char × Nat) :=
  match dlookup c acc with
  | some n => dictSet acc c (n + 1)
  | none => acc ++ [(c, 1)]

/-- `Counter(data)` as an insertion-ordered association list. -/
def counter (data : List Char) : List (Char × Nat) := data.foldl incr []

/-! ## Code assignment (`generate_codes`) and `_build_huffman_tree` -/

/-- The recursive `generate_codes` walk: leaves (truthy `char`) record the
accumulated path code; internal nodes recurse left with `code + '0'` and
right with `code + '1'`.  Emitted in traversal order. -/
def genCodes : HNode → List Char → List (Char × List Char)
  | .leaf c _, code => [(c, code)]
  | .internal _ l r, code => genCodes l (code ++ ['0']) ++ genCodes r (code ++ ['1'])

/-- `_build_huffman_tree(data)`: frequency table, single-symbol special case
`{data[0]: '0'}`, else heapify the leaves, merge, and walk the final tree.
The assignments `codes[node.char] = code` build a dict (`dictFromList`); the
`[]` fallbacks are unreachable (`counter data = []` only for `data = []`,
and then the heap is empty and `if heap:` skips the walk, giving `{}`). -/
def build_huffman_tree (data : List Char) : List (Char × List Char) :=
  let freq := counter data
  if freq.length = 1 then
    match data with
    | c :: _ => [(c, ['0'])]
    | [] => []
  else
    let heap := freq.foldl (fun h p => heappush h (.leaf p.1 p.2)) []
    match mergeLoop heap.length heap with
    | root :: _ => dictFromList (genCodes root [])
    | [] => []

/-! ## `_compress` and `_decompress` -/

/-- `''.join(huffman_codes[char] for char in data)`: a missing key raises
`KeyError` (never reachable, see the completeness lemma). -/
def joinCodes (codes : List (Char × List Char)) : List Char → Except Unit (List Char)
  | [] => .ok []
  | c :: rest =>
    match dlookup c codes with
    | some code =>
      match joinCodes codes rest with
      | .ok tail => .ok (code ++ tail)
      | .error e => .error e
    | none => .error ()

/-- `_compress(data)`: build the code table, concatenate the per-character
codes, right-pad with '0' to a byte boundary, convert to bytes and base64.
`int(padded_binary, 2)` raises `ValueError` exactly when `data` is empty. -/
def _compress (data : List Char) : Except Unit (List Char × List (Char × List Char)) :=
  let huffman_codes := build_huffman_tree data
  match joinCodes huffman_codes data with
  | .error e => .error e
  | .ok compressed =>
    let padding_length := (8 - compressed.length % 8) % 8
    let padded_binary := compressed ++ List.replicate padding_length '0'
    match parseBinE padded_binary with
    | .error e => .error e
    | .ok v =>
      let bytes_data := toBytesBE ((padded_binary.length + 7) / 8) v
      .ok (b64encode bytes_data, huffman_codes)

/-- `{code: char for char, code in huffman_codes.items()}`. -/
def reverseCodes (huffman_codes : List (Char × List Char)) : List (List Char × Char) :=
  dictFromList (huffman_codes.map (fun p => (p.2, p.1)))

/-- The decode loop of `_decompress`: extend the running buffer one bit at a
time; whenever the buffer is a known code, emit its character and reset the
buffer.  Bits left in the buffer at the end are silently dropped. -/
def decodeLoop (rev : List (List Char × Char)) : List Char → List Char → List Char
  | _, [] => []
  | buf, bit :: rest =>
    match dlookup (buf ++ [bit]) rev with
    | some ch => ch :: decodeLoop rev [] rest
    | none => decodeLoop rev (buf ++ [bit]) rest

/-- `_decompress(compressed_str, huffman_codes)`: base64-decode, rebuild the
full-width bit string via `bin(...)[2:].zfill(len(bytes) * 8)`, then greedily
decode.  The only exception source is the base64 decode. -/
def _decompress (compressed_str : List Char) (huffman_codes : List (Char × List Char)) :
    Except Unit (List Char) :=
  match b64decodeE compressed_str with
  | .error e => .error e
  | .ok bytes_data =>
    let binary := zfill (natToBin (fromBytesBE bytes_data)) (bytes_data.length * 8)
    .ok (decodeLoop (reverseCodes huffman_codes) [] binary)

/-! ## The URL store -/

/-- The value stored in `self.compressed_data[short_code]`. -/
structure RecordData where
  compressed : List Char
  huffman_codes : List (Char × List Char)
  original_url : List Char
deriving DecidableEq

/-- The mutable state of a `URLShortener` instance. -/
structure Shortener where
  url_to_code : List (List Char × List Char)
  code_to_url : List (List Char × List Char)
  compressed_data : List (List Char × RecordData)
  max_collision_attempts : Nat
deriving DecidableEq

/-- A fresh `URLShortener()` (`max_collision_attempts = 10`). -/
def Shortener.init : Shortener := ⟨[], [], [], 10⟩

/-- External collaborators of `_generate_short_code`: `hashHex url` is
`hashlib.sha256(url.encode()).hexdigest()` and `suffix i` is the
`random.choices(string.ascii_lowercase, k=4)` draw of the i-th loop
iteration.  Both are stdlib capabilities, not repository code. -/
structure Env where
  hashHex : List Char → List Char
  suffix : Nat → List Char

/-- Stdlib behaviour the program relies on: each `random.choices(..., k=4)`
draw has length 4. -/
def EnvWF (env : Env) : Prop := ∀ i, (env.suffix i).length = 4

/-- Value of a hexadecimal digit (sha256 hexdigests are always valid hex, so
the 0 default for a non-hex character is never exercised). -/
def hexVal (c : Char) : Nat :=
  if '0' ≤ c ∧ c ≤ '9' then c.toNat - '0'.toNat
  else if 'a' ≤ c ∧ c ≤ 'f' then c.toNat - 'a'.toNat + 10
  else if 'A' ≤ c ∧ c ≤ 'F' then c.toNat - 'A'.toNat + 10
  else 0

/-- `bytes.fromhex`: consecutive pairs of hex digits. -/
def fromHexPairs : List Char → List Nat
  | c1 :: c2 :: rest => (hexVal c1 * 16 + hexVal c2) :: fromHexPairs rest
  | _ => []

/-- Python `str.rstrip('=')`. -/
def rstripEq (s : List Char) : List Char := (s.reverse.dropWhile (fun c => c = '=')).reverse

/-- The deterministic part of a candidate short code:
`urlsafe_b64encode(bytes.fromhex(hash_hex[:16])).decode().rstrip('=')[:8]`.
It does not change between loop iterations (the digest is computed once). -/
def seedPart (env : Env) (url : List Char) : List Char :=
  (rstripEq (b64encode (fromHexPairs ((env.hashHex url).take 16)))).take 8

/-- The `for _ in range(max_collision_attempts)` loop of
`_generate_short_code`: candidate = seed part + fresh 4-letter suffix; return
it unless it is already a key of `code_to_url`.  Exhausting the bound raises
`ValueError` (the spec's `CodeGenerationExhausted`). -/
def genLoop (env : Env) (url : List Char) (code_to_url : List (List Char × List Char)) :
    Nat → Nat → Except Unit (List Char)
  | _, 0 => .error ()
  | i, remaining + 1 =>
    let short_code := seedPart env url ++ env.suffix i
    if (dlookup short_code code_to_url).isSome then genLoop env url code_to_url (i + 1) remaining
    else .ok short_code

/-- `_generate_short_code(url)`. -/
def _generate_short_code (env : Env) (code_to_url : List (List Char × List Char))
    (max_collision_attempts : Nat) (url : List Char) : Except Unit (List Char) :=
  genLoop env url code_to_url 0 max_collision_attempts

/-- `shorten_url(long_url)`: early return for a known URL; otherwise generate
a short code, store both URL mappings, compress the short code, store the
codec record.  The state is returned alongside the result so that a raised
exception (`.error`) still reports the mutations made before it (the store
mappings are written before `_compress` runs, exactly as in the source). -/
def shorten_url (env : Env) (s : Shortener) (long_url : List Char) :
    Except Unit (List Char × List Char) × Shortener :=
  match dlookup long_url s.url_to_code with
  | some short_code =>
    match dlookup short_code s.compressed_data with
    | some compressed_info => (.ok (short_code, compressed_info.compressed), s)
    | none => (.error (), s)
  | none =>
    match _generate_short_code env s.code_to_url s.max_collision_attempts long_url with
    | .error e => (.error e, s)
    | .ok short_code =>
      let s1 : Shortener :=
        { s with
          url_to_code := dictSet s.url_to_code long_url short_code
          code_to_url := dictSet s.code_to_url short_code long_url }
      match _compress short_code with
      | .error e => (.error e, s1)
      | .ok (compressed_str, huffman_codes) =>
        let s2 : Shortener :=
          { s1 with
            compressed_data :=
              dictSet s1.compressed_data short_code
                ⟨compressed_str, huffman_codes, long_url⟩ }
        (.ok (short_code, compressed_str), s2)

/-- The per-record test of `expand_url`: decompressing the query under the
record's table must yield a key of `code_to_url` that maps back to the
record's own `original_url`. -/
def recordMatches (s : Shortener) (compressed_code : List Char) (data : RecordData) : Bool :=
  match _decompress compressed_code data.huffman_codes with
  | .error _ => false
  | .ok decompressed =>
    match dlookup decompressed s.code_to_url with
    | some u => u = data.original_url
    | none => false

/-- The `for short_code, data in self.compressed_data.items()` scan of
`expand_url`; exceptions from `_decompress` are swallowed by the
`try/except` and the scan continues. -/
def expandLoop (s : Shortener) (compressed_code : List Char) :
    List (List Char × RecordData) → Option (List Char)
  | [] => none
  | (_, data) :: rest =>
    match _decompress compressed_code data.huffman_codes with
    | .error _ => expandLoop s compressed_code rest
    | .ok decompressed =>
      match dlookup decompressed s.code_to_url with
      | some u => if u = data.original_url then some u else expandLoop s compressed_code rest
      | none => expandLoop s compressed_code rest

/-- `expand_url(compressed_code)`: scan all records, return the first verified
hit, else `None`.  It never mutates the store (no assignment in its body). -/
def expand_url (s : Shortener) (compressed_code : List Char) : Option (List Char) :=
  expandLoop s compressed_code s.compressed_data

/-- Decidable condition under which `_compress` needs no padding bits: the
concatenated code string of `data` has length a multiple of 8. -/
def padFree (data : List Char) : Bool :=
  match joinCodes (build_huffman_tree data) data with
  | .ok bits => bits.length % 8 = 0
  | .error _ => false

/-! ## Lemmas about the dict model -/

theorem dlookup_isSome_iff [DecidableEq α] {k : α} {d : List (α × β)} :
    (dlookup k d).isSome ↔ k ∈ d.map Prod.fst := by
  induction d with
  | nil => simp [dlookup]
  | cons p rest ih =>
    obtain ⟨k', v⟩ := p
    by_cases h : k' = k
    · subst h
      simp [dlookup]
    · have h2 : ¬ k = k' := fun hh => h hh.symm
      simp [dlookup, h, h2, ih]

theorem dlookup_eq_none_iff [DecidableEq α] {k : α} {d : List (α × β)} :
    dlookup k d = none ↔ k ∉ d.map Prod.fst := by
  rw [← dlookup_isSome_iff, Option.isSome_iff_ne_none]
  tauto

theorem dlookup_mem [DecidableEq α] {k : α} {v : β} {d : List (α × β)} :
    dlookup k d = some v → (k, v) ∈ d := by
  induction d with
  | nil => simp [dlookup]
  | cons p rest ih =>
    obtain ⟨k', v'⟩ := p
    simp only [dlookup]
    by_cases h : k' = k
    · subst h
      rw [if_pos rfl]
      intro hl
      obtain rfl : v' = v := by injection hl
      exact List.mem_cons_self _ _
    · rw [if_neg h]
      intro hl
      exact List.mem_cons_of_mem _ (ih hl)

theorem dlookup_append_of_none [DecidableEq α] {k : α} {d1 d2 : List (α × β)}
    (h : dlookup k d1 = none) : dlookup k (d1 ++ d2) = dlookup k d2 := by
  induction d1 with
  | nil => simp
  | cons p rest ih =>
    obtain ⟨k', v'⟩ := p
    by_cases hk : k' = k
    · simp [dlookup, hk] at h
    · simp only [List.cons_append, dlookup, if_neg hk] at h ⊢
      exact ih h

theorem dlookup_append_of_some [DecidableEq α] {k : α} {v : β} {d1 d2 : List (α × β)}
    (h : dlookup k d1 = some v) : dlookup k (d1 ++ d2) = some v := by
  induction d1 with
  | nil => simp [dlookup] at h
  | cons p rest ih =>
    obtain ⟨k', v'⟩ := p
    by_cases hk : k' = k
    · simp only [dlookup, if_pos hk] at h
      simp only [List.cons_append, dlookup, if_pos hk, h]
    · simp only [List.cons_append, dlookup, if_neg hk] at h ⊢
      exact ih h

theorem dlookup_map_overwrite [DecidableEq α] {k : α} (v : β) (d : List (α × β))
    (h : (dlookup k d).isSome) :
    dlookup k (d.map (fun p => if p.1 = k then (k, v) else p)) = some v := by
  induction d with
  | nil => simp [dlookup] at h
  | cons p rest ih =>
    obtain ⟨k0, w⟩ := p
    simp only [List.map_cons]
    by_cases hk : k0 = k
    · subst hk
      rw [if_pos rfl]
      simp [dlookup]
    · have h' : (dlookup k rest).isSome := by simpa [dlookup, hk] using h
      rw [if_neg hk]
      simpa [dlookup, hk] using ih h'

theorem dlookup_map_overwrite_ne [DecidableEq α] {k' k : α} (v : β) (d : List (α × β))
    (h : k' ≠ k) :
    dlookup k' (d.map (fun p => if p.1 = k then (k, v) else p)) = dlookup k' d := by
  induction d with
  | nil => simp
  | cons p rest ih =>
    obtain ⟨k0, w⟩ := p
    simp only [List.map_cons]
    by_cases hk : k0 = k
    · subst hk
      have hne : ¬ (k0 = k') := fun hh => h hh.symm
      rw [if_pos rfl]
      simp [dlookup, hne, ih]
    · rw [if_neg hk]
      by_cases hk' : k0 = k'
      · subst hk'
        simp [dlookup]
      · simp [dlookup, hk', ih]

theorem dlookup_dictSet_self [DecidableEq α] (d : List (α × β)) (k : α) (v : β) :
    dlookup k (dictSet d k v) = some v := by
  unfold dictSet
  by_cases h : (dlookup k d).isSome
  · rw [if_pos h]
    exact dlookup_map_overwrite v d h
  · rw [if_neg h]
    have hn : dlookup k d = none := Option.not_isSome_iff_eq_none.mp h
    rw [dlookup_append_of_none hn]
    simp [dlookup]

theorem dlookup_dictSet_ne [DecidableEq α] {k' k : α} (d : List (α × β)) (v : β)
    (h : k' ≠ k) : dlookup k' (dictSet d k v) = dlookup k' d := by
  unfold dictSet
  by_cases hs : (dlookup k d).isSome
  · rw [if_pos hs]
    exact dlookup_map_overwrite_ne v d h
  · rw [if_neg hs]
    cases hd : dlookup k' d with
    | some w => exact dlookup_append_of_some hd
    | none =>
      rw [dlookup_append_of_none hd]
      have h2 : ¬ k = k' := fun hh => h hh.symm
      simp [dlookup, h2]

theorem map_fst_dictSet_of_isSome [DecidableEq α] {k : α} {d : List (α × β)} (v : β)
    (h : (dlookup k d).isSome) : (dictSet d k v).map Prod.fst = d.map Prod.fst := by
  unfold dictSet
  rw [if_pos h, List.map_map]
  apply List.map_congr_left
  intro p _
  by_cases hp : p.1 = k <;> simp [hp]

theorem map_fst_dictSet_of_none [DecidableEq α] {k : α} {d : List (α × β)} (v : β)
    (h : dlookup k d = none) : (dictSet d k v).map Prod.fst = d.map Prod.fst ++ [k] := by
  unfold dictSet
  rw [if_neg (by simp [h])]
  simp

theorem nodup_map_fst_dictSet [DecidableEq α] {k : α} {d : List (α × β)} (v : β)
    (h : (d.map Prod.fst).Nodup) : ((dictSet d k v).map Prod.fst).Nodup := by
  cases hd : dlookup k d with
  | some w => rwa [map_fst_dictSet_of_isSome v (by simp [hd])]
  | none =>
    rw [map_fst_dictSet_of_none v hd]
    rw [dlookup_eq_none_iff] at hd
    simp [List.nodup_append, h, hd]

theorem dictSet_eq_append_of_some [DecidableEq α] {k : α} {d : List (α × β)} (v : β) {w : β}
    (hd : dlookup k d = some w) :
    ∃ A B, dictSet d k v = A ++ (k, v) :: B ∧ ∀ p ∈ A, p ∈ d := by
  unfold dictSet
  rw [if_pos (by simp [hd])]
  induction d with
  | nil => simp [dlookup] at hd
  | cons p rest ih =>
    obtain ⟨k0, w0⟩ := p
    by_cases hk : k0 = k
    · subst hk
      refine ⟨[], rest.map (fun p => if p.1 = k0 then (k0, v) else p), ?_, by simp⟩
      simp
    · simp only [dlookup, if_neg hk] at hd
      obtain ⟨A, B, hAB, hA⟩ := ih hd
      refine ⟨(k0, w0) :: A, B, ?_, ?_⟩
      · simp only [List.map_cons]
        rw [if_neg hk, hAB]
        simp
      · intro p hp
        rcases List.mem_cons.mp hp with rfl | hp
        · exact List.mem_cons_self _ _
        · exact List.mem_cons_of_mem _ (hA p hp)

theorem dictSet_eq_append [DecidableEq α] {k : α} (d : List (α × β)) (v : β) :
    ∃ A B, dictSet d k v = A ++ (k, v) :: B ∧ ∀ p ∈ A, p ∈ d := by
  cases hd : dlookup k d with
  | none =>
    refine ⟨d, [], ?_, fun p hp => hp⟩
    unfold dictSet
    rw [if_neg (by simp [hd])]
  | some w => exact dictSet_eq_append_of_some v hd

theorem foldl_dictSet_eq_append [DecidableEq α] (l : List (α × β)) : ∀ acc : List (α × β),
    (∀ p ∈ l, dlookup p.1 acc = none) → (l.map Prod.fst).Nodup →
    l.foldl (fun d p => dictSet d p.1 p.2) acc = acc ++ l := by
  induction l with
  | nil => simp
  | cons q t ih =>
    intro acc hdisj hnd
    obtain ⟨k, v⟩ := q
    have hk : dlookup k acc = none := hdisj (k, v) (List.mem_cons_self _ _)
    have hset : dictSet acc k v = acc ++ [(k, v)] := by
      unfold dictSet
      rw [if_neg (by simp [hk])]
    simp only [List.foldl_cons, hset]
    rw [ih (acc ++ [(k, v)]) ?_ (by simpa using hnd.of_cons)]
    · simp
    · intro p hp
      have hpk : p.1 ≠ k := by
        simp only [List.map_cons, List.nodup_cons] at hnd
        intro hcon
        exact hnd.1 (hcon ▸ List.mem_map_of_mem Prod.fst hp)
      rw [dlookup_append_of_none (hdisj p (List.mem_cons_of_mem _ hp))]
      have h2 : ¬ k = p.1 := fun hh => hpk hh.symm
      simp [dlookup, h2]

theorem dictFromList_eq_self [DecidableEq α] {l : List (α × β)}
    (h : (l.map Prod.fst).Nodup) : dictFromList l = l := by
  unfold dictFromList
  rw [foldl_dictSet_eq_append l [] (by simp [dlookup]) h]
  simp

/-! ## Lemmas about bit strings and byte strings -/

theorem bitChar_bitVal {c : Char} (h : isBit c = true) : bitChar (bitVal c) = c := by
  rcases (by simpa [isBit] using h : c = '0' ∨ c = '1') with rfl | rfl <;> rfl

theorem bitVal_le {c : Char} : bitVal c ≤ 1 := by
  unfold bitVal
  split <;> omega

theorem parseBin_concat (s : List Char) (c : Char) :
    parseBin (s ++ [c]) = 2 * parseBin s + bitVal c := by
  unfold parseBin
  rw [List.foldl_append]
  rfl

theorem parseBin_lt (s : List Char) : parseBin s < 2 ^ s.length := by
  induction s using List.reverseRecOn with
  | nil => simp [parseBin]
  | append_singleton xs c ih =>
    rw [parseBin_concat]
    have hb : bitVal c ≤ 1 := bitVal_le
    have h2 : (2 : Nat) ^ (xs.length + 1) = 2 * 2 ^ xs.length := by
      rw [pow_succ]
      ring
    simp only [List.length_append, List.length_singleton]
    omega

theorem natBits_parseBin (s : List Char) (h : s.all isBit = true) :
    natBits s.length (parseBin s) = s := by
  induction s using List.reverseRecOn with
  | nil => rfl
  | append_singleton xs c ih =>
    have hxs : xs.all isBit = true := by
      rw [List.all_append] at h
      exact (Bool.and_eq_true_iff.mp h).1
    have hc : isBit c = true := by
      rw [List.all_append] at h
      simpa using (Bool.and_eq_true_iff.mp h).2
    have hb : bitVal c ≤ 1 := bitVal_le
    rw [parseBin_concat]
    simp only [List.length_append, List.length_singleton]
    rw [natBits]
    have h1 : (2 * parseBin xs + bitVal c) / 2 = parseBin xs := by omega
    have h2 : (2 * parseBin xs + bitVal c) % 2 = bitVal c := by omega
    rw [h1, h2, ih hxs, bitChar_bitVal hc]

theorem natBits_zero (n : Nat) : natBits n 0 = List.replicate n '0' := by
  induction n with
  | zero => rfl
  | succ n ih =>
    rw [natBits, Nat.zero_div, Nat.zero_mod, ih, List.replicate_succ']
    rfl

theorem natBits_split (m : Nat) : ∀ a v : Nat,
    natBits (a + m) v = natBits a (v / 2 ^ m) ++ natBits m v := by
  induction m with
  | zero =>
    intro a v
    simp [natBits]
  | succ m ih =>
    intro a v
    rw [show a + (m + 1) = (a + m) + 1 by omega, natBits, ih a (v / 2), natBits,
      Nat.div_div_eq_div_mul, show 2 * 2 ^ m = 2 ^ (m + 1) by rw [pow_succ']]
    simp

theorem zfill_append_bit (xs : List Char) (b : Char) (n : Nat) :
    zfill (xs ++ [b]) n = zfill xs (n - 1) ++ [b] := by
  unfold zfill
  have h : n - (xs.length + 1) = (n - 1) - xs.length := by omega
  simp [h]

theorem zfill_binAux (v : Nat) : ∀ fuel n : Nat, v < fuel → v < 2 ^ n → 1 ≤ n →
    zfill (binAux fuel v) n = natBits n v := by
  induction v using Nat.strong_induction_on with
  | _ v ih =>
    intro fuel n hfuel hv hn
    match fuel with
    | 0 => omega
    | fuel + 1 =>
      by_cases h2 : v < 2
      · rw [binAux, if_pos h2]
        have hsplit : natBits n v = List.replicate (n - 1) '0' ++ [bitChar v] := by
          conv_lhs => rw [show n = (n - 1) + 1 by omega]
          rw [show (n - 1) + 1 = (n - 1) + 1 by rfl, natBits_split 1 (n - 1) v]
          have hv2 : v / 2 ^ 1 = 0 := by omega
          rw [hv2, natBits_zero]
          have : natBits 1 v = [bitChar (v % 2)] := rfl
          rw [this, show v % 2 = v by omega]
        rw [hsplit]
        unfold zfill
        simp
      · rw [binAux, if_neg h2, zfill_append_bit]
        have hn2 : 2 ≤ n := by
          rcases Nat.lt_or_ge n 2 with h | h
          · exfalso
            have : n = 1 := by omega
            subst this
            simp at hv
            omega
          · exact h
        have hpow : (2 : Nat) ^ n = 2 ^ (n - 1) * 2 := by
          conv_lhs => rw [show n = (n - 1) + 1 by omega]
          rw [pow_succ]
        have hv2 : v / 2 < 2 ^ (n - 1) := by
          rw [Nat.div_lt_iff_lt_mul (by norm_num)]
          omega
        rw [ih (v / 2) (by omega) fuel (n - 1) (by omega) hv2 (by omega)]
        conv_rhs => rw [show n = (n - 1) + 1 by omega]
        rw [natBits]

theorem zfill_natToBin (v n : Nat) (hv : v < 2 ^ n) (hn : 1 ≤ n) :
    zfill (natToBin v) n = natBits n v :=
  zfill_binAux v (v + 1) n (by omega) hv hn

theorem fromBytes_concat (bs : List Nat) (b : Nat) :
    fromBytesBE (bs ++ [b]) = 256 * fromBytesBE bs + b := by
  unfold fromBytesBE
  rw [List.foldl_append]
  rfl

theorem fromBytes_toBytes_mod (n : Nat) : ∀ v : Nat,
    fromBytesBE (toBytesBE n v) = v % 256 ^ n := by
  induction n with
  | zero =>
    intro v
    simp [toBytesBE, fromBytesBE, Nat.mod_one]
  | succ n ih =>
    intro v
    rw [toBytesBE, fromBytes_concat, ih]
    rw [show (256 : Nat) ^ (n + 1) = 256 * 256 ^ n by rw [pow_succ']]
    rw [Nat.mod_mul]
    omega

theorem toBytes_length (n : Nat) : ∀ v : Nat, (toBytesBE n v).length = n := by
  induction n with
  | zero => intro v; rfl
  | succ n ih =>
    intro v
    rw [toBytesBE]
    simp [ih]

theorem toBytes_lt (n : Nat) : ∀ v : Nat, ∀ b ∈ toBytesBE n v, b < 256 := by
  induction n with
  | zero => simp [toBytesBE]
  | succ n ih =>
    intro v b hb
    rw [toBytesBE] at hb
    rcases List.mem_append.mp hb with h | h
    · exact ih _ b h
    · simp at h
      omega

/-! ## Lemmas about base64 -/

theorem b64chars_length : b64chars.length = 64 := by decide

theorem alphaVal_alpha : ∀ v : Nat, v < 64 → alphaVal (alpha v) = some v := by decide

theorem alpha_ne_pad (v : Nat) : alpha v ≠ '=' := by
  by_cases h : v < 64
  · exact (by decide : ∀ x : Nat, x < 64 → alpha x ≠ '=') v h
  · unfold alpha
    rw [List.getD_eq_default]
    · decide
    · rw [b64chars_length]
      omega

theorem alpha_ne_plus (v : Nat) (hv : v < 64) : alpha v ≠ '+' :=
  (by decide : ∀ x : Nat, x < 64 → alpha x ≠ '+') v hv

theorem alpha_ne_slash (v : Nat) (hv : v < 64) : alpha v ≠ '/' :=
  (by decide : ∀ x : Nat, x < 64 → alpha x ≠ '/') v hv

theorem b64charVal_alpha (v : Nat) (hv : v < 64) : b64charVal (alpha v) = some v := by
  unfold b64charVal
  rw [if_neg (alpha_ne_plus v hv), if_neg (alpha_ne_slash v hv)]
  exact alphaVal_alpha v hv

theorem a2b_char0 {c : Char} {v : Nat} (hne : c ≠ '=') (hv : b64charVal c = some v)
    (rest : List Char) (l p : Nat) (acc : List Nat) :
    a2bBase64 (c :: rest) 0 l p acc = a2bBase64 rest 1 v 0 acc := by
  rw [a2bBase64, if_neg hne]
  simp only [hv]
  simp

theorem a2b_char1 {c : Char} {v : Nat} (hne : c ≠ '=') (hv : b64charVal c = some v)
    (rest : List Char) (l p : Nat) (acc : List Nat) :
    a2bBase64 (c :: rest) 1 l p acc =
      a2bBase64 rest 2 (v % 16) 0 (acc ++ [l * 4 + v / 16]) := by
  rw [a2bBase64, if_neg hne]
  simp only [hv]
  simp

theorem a2b_char2 {c : Char} {v : Nat} (hne : c ≠ '=') (hv : b64charVal c = some v)
    (rest : List Char) (l p : Nat) (acc : List Nat) :
    a2bBase64 (c :: rest) 2 l p acc =
      a2bBase64 rest 3 (v % 4) 0 (acc ++ [l * 16 + v / 4]) := by
  rw [a2bBase64, if_neg hne]
  simp only [hv]
  simp

theorem a2b_char3 {c : Char} {v : Nat} (hne : c ≠ '=') (hv : b64charVal c = some v)
    (rest : List Char) (l p : Nat) (acc : List Nat) :
    a2bBase64 (c :: rest) 3 l p acc =
      a2bBase64 rest 0 0 0 (acc ++ [l * 64 + v]) := by
  rw [a2bBase64, if_neg hne]
  simp only [hv]
  simp

theorem a2b_pad_stop {q p : Nat} (h2 : 2 ≤ q) (h4 : 4 ≤ q + (p + 1))
    (rest : List Char) (l : Nat) (acc : List Nat) :
    a2bBase64 ('=' :: rest) q l p acc = .ok acc := by
  rw [a2bBase64, if_pos rfl, if_pos h2, if_pos h4]

theorem a2b_pad_next {q p : Nat} (h2 : 2 ≤ q) (h4 : ¬ 4 ≤ q + (p + 1))
    (rest : List Char) (l : Nat) (acc : List Nat) :
    a2bBase64 ('=' :: rest) q l p acc = a2bBase64 rest q l (p + 1) acc := by
  rw [a2bBase64, if_pos rfl, if_pos h2, if_neg h4]

theorem b64decode_encode_aux (n : Nat) : ∀ bs : List Nat, bs.length ≤ n →
    (∀ b ∈ bs, b < 256) → ∀ (l p : Nat) (acc : List Nat),
    a2bBase64 (b64encode bs) 0 l p acc = .ok (acc ++ bs) := by
  induction n with
  | zero =>
    intro bs hlen _ l p acc
    have hnil : bs = [] := List.length_eq_zero.mp (Nat.le_zero.mp hlen)
    subst hnil
    simp [b64encode, a2bBase64]
  | succ n ih =>
    intro bs hlen hb l p acc
    match bs with
    | [] => simp [b64encode, a2bBase64]
    | [a] =>
      have ha : a < 256 := hb a (by simp)
      rw [b64encode]
      rw [a2b_char0 (alpha_ne_pad (a / 4)) (b64charVal_alpha (a / 4) (by omega))]
      rw [a2b_char1 (alpha_ne_pad (a % 4 * 16)) (b64charVal_alpha (a % 4 * 16) (by omega))]
      rw [a2b_pad_next (by omega) (by omega)]
      rw [a2b_pad_stop (by omega) (by omega)]
      have h1 : a / 4 * 4 + a % 4 * 16 / 16 = a := by omega
      rw [h1]
    | [a, b] =>
      have ha : a < 256 := hb a (by simp)
      have hbb : b < 256 := hb b (by simp)
      rw [b64encode]
      rw [a2b_char0 (alpha_ne_pad (a / 4)) (b64charVal_alpha (a / 4) (by omega))]
      rw [a2b_char1 (alpha_ne_pad (a % 4 * 16 + b / 16))
        (b64charVal_alpha (a % 4 * 16 + b / 16) (by omega))]
      rw [a2b_char2 (alpha_ne_pad (b % 16 * 4)) (b64charVal_alpha (b % 16 * 4) (by omega))]
      rw [a2b_pad_stop (by omega) (by omega)]
      have h1 : a / 4 * 4 + (a % 4 * 16 + b / 16) / 16 = a := by omega
      have h2 : (a % 4 * 16 + b / 16) % 16 * 16 + b % 16 * 4 / 4 = b := by omega
      rw [h1, h2]
      simp
    | a :: b :: c :: rest =>
      have ha : a < 256 := hb a (by simp)
      have hbb : b < 256 := hb b (by simp)
      have hc : c < 256 := hb c (by simp)
      rw [b64encode]
      rw [a2b_char0 (alpha_ne_pad (a / 4)) (b64charVal_alpha (a / 4) (by omega))]
      rw [a2b_char1 (alpha_ne_pad (a % 4 * 16 + b / 16))
        (b64charVal_alpha (a % 4 * 16 + b / 16) (by omega))]
      rw [a2b_char2 (alpha_ne_pad (b % 16 * 4 + c / 64))
        (b64charVal_alpha (b % 16 * 4 + c / 64) (by omega))]
      rw [a2b_char3 (alpha_ne_pad (c % 64)) (b64charVal_alpha (c % 64) (by omega))]
      rw [ih rest (by simp at hlen; omega) (fun x hx => hb x (by simp [hx]))]
      have h1 : a / 4 * 4 + (a % 4 * 16 + b / 16) / 16 = a := by omega
      have h2 : (a % 4 * 16 + b / 16) % 16 * 16 + (b % 16 * 4 + c / 64) / 4 = b := by omega
      have h3 : (b % 16 * 4 + c / 64) % 4 * 64 + c % 64 = c := by omega
      rw [h1, h2, h3]
      simp

theorem b64decode_encode (bs : List Nat) (hb : ∀ b ∈ bs, b < 256) :
    b64decodeE (b64encode bs) = .ok bs := by
  unfold b64decodeE
  rw [b64decode_encode_aux bs.length bs (le_refl _) hb 0 0 []]
  simp

/-- Regression examples of the non-strict decoder, matching CPython: stray
characters and data after complete padding are tolerated, `'='` before two
data characters is skipped, and a scan ending mid-quad raises. -/
theorem b64decode_nonstrict_examples :
    b64decodeE ['A', 'A', '=', '=', '!'] = .ok [0] ∧
    b64decodeE ['A', 'A', 'A', 'A', '!'] = .ok [0, 0, 0] ∧
    b64decodeE ['A', 'A', '\n', '=', '='] = .ok [0] ∧
    b64decodeE ['=', '=', '=', '='] = .ok [] ∧
    b64decodeE ['A', 'B', '=', '=', 'C', 'D', '=', '='] = .ok [0] ∧
    b64decodeE ['+', '+', '/', '/'] = .ok [251, 239, 255] ∧
    b64decodeE ['A', 'A'] = .error () ∧
    b64decodeE ['A'] = .error () ∧
    b64decodeE ['A', 'A', '='] = .error () :=
  ⟨rfl, rfl, rfl, rfl, rfl, rfl, rfl, rfl, rfl⟩

/-! ## Permutation lemmas for the heap operations -/

theorem getD_set_self {α : Type} (d : α) (l : List α) (i : Nat) (x : α) (h : i < l.length) :
    (l.set i x).getD i d = x := by
  induction l generalizing i with
  | nil => simp at h
  | cons a t ih =>
    match i with
    | 0 => rfl
    | i + 1 =>
      simp only [List.set_cons_succ, List.getD_cons_succ]
      exact ih i (by simpa using h)

theorem getD_set_ne {α : Type} (d : α) (l : List α) {i j : Nat} (x : α) (h : i ≠ j) :
    (l.set i x).getD j d = l.getD j d := by
  induction l generalizing i j with
  | nil => simp
  | cons a t ih =>
    match i, j with
    | 0, 0 => omega
    | 0, j + 1 => rfl
    | i + 1, 0 => rfl
    | i + 1, j + 1 =>
      simp only [List.set_cons_succ, List.getD_cons_succ]
      exact ih (by omega)

theorem getD_cons_set_perm {α : Type} (d : α) : ∀ (t : List α) (j : Nat) (a : α),
    j < t.length → List.Perm ((t.getD j d) :: t.set j a) (a :: t) := by
  intro t
  induction t with
  | nil =>
    intro j a h
    simp at h
  | cons b t' ih =>
    intro j a h
    match j with
    | 0 => exact List.Perm.swap a b t'
    | j + 1 =>
      have step1 : List.Perm ((t'.getD j d) :: b :: t'.set j a) (b :: (t'.getD j d) :: t'.set j a) :=
        List.Perm.swap b (t'.getD j d) (t'.set j a)
      have step2 : List.Perm (b :: (t'.getD j d) :: t'.set j a) (b :: a :: t') :=
        (ih j a (by simpa using h)).cons b
      have step3 : List.Perm (b :: a :: t') (a :: b :: t') := List.Perm.swap a b t'
      exact (step1.trans step2).trans step3

theorem swap_set_perm {α : Type} (d : α) : ∀ (l : List α) (i j : Nat),
    i < l.length → j < l.length → i ≠ j →
    List.Perm ((l.set i (l.getD j d)).set j (l.getD i d)) l := by
  intro l
  induction l with
  | nil =>
    intro i j hi _ _
    simp at hi
  | cons a t ih =>
    intro i j hi hj hij
    match i, j with
    | 0, 0 => omega
    | 0, j + 1 =>
      simp only [List.getD_cons_succ, List.getD_cons_zero, List.set_cons_zero,
        List.set_cons_succ]
      exact getD_cons_set_perm d t j a (by simpa using hj)
    | i + 1, 0 =>
      simp only [List.getD_cons_succ, List.getD_cons_zero, List.set_cons_zero,
        List.set_cons_succ]
      exact getD_cons_set_perm d t i a (by simpa using hi)
    | i + 1, j + 1 =>
      simp only [List.getD_cons_succ, List.set_cons_succ]
      exact (ih i j (by simpa using hi) (by simpa using hj) (by omega)).cons a

theorem set_set_perm (l : List HNode) (i j : Nat) (x : HNode) (hi : i < l.length)
    (hj : j < l.length) (hji : j ≠ i) :
    List.Perm ((l.set i (l.getD j hdflt)).set j x) (l.set i x) := by
  have hperm := swap_set_perm hdflt (l.set i x) i j (by simpa using hi) (by simpa using hj)
    (fun h => hji h.symm)
  rw [getD_set_self hdflt l i x hi] at hperm
  rw [getD_set_ne hdflt l x (fun h => hji h.symm)] at hperm
  rwa [List.set_set] at hperm

theorem siftdownLoop_perm : ∀ (fuel : Nat) (heap : List HNode) (startpos pos : Nat)
    (newitem : HNode), pos < heap.length →
    List.Perm (siftdownLoop fuel heap startpos pos newitem) (heap.set pos newitem) := by
  intro fuel
  induction fuel with
  | zero =>
    intro heap s pos n _
    exact List.Perm.refl _
  | succ fuel ih =>
    intro heap s pos newitem hpos
    rw [siftdownLoop]
    by_cases hs : s < pos
    · simp only [if_pos hs]
      by_cases hl : hlt newitem (heap.getD ((pos - 1) / 2) hdflt) = true
      · simp only [hl, if_true]
        have hpp : (pos - 1) / 2 < pos := by omega
        have hrec := ih (heap.set pos (heap.getD ((pos - 1) / 2) hdflt)) s ((pos - 1) / 2)
          newitem (by rw [List.length_set]; omega)
        refine hrec.trans ?_
        exact set_set_perm heap pos ((pos - 1) / 2) newitem hpos (by omega) (by omega)
      · simp only [hl, if_false]
        exact List.Perm.refl _
    · simp only [if_neg hs]
      exact List.Perm.refl _

theorem siftupLoop_perm : ∀ (fuel startpos : Nat) (heap : List HNode) (pos : Nat)
    (newitem : HNode), pos < heap.length →
    List.Perm (siftupLoop startpos fuel heap pos newitem) (heap.set pos newitem) := by
  intro fuel
  induction fuel with
  | zero =>
    intro s heap pos n hpos
    rw [siftupLoop]
    have h := siftdownLoop_perm (pos + 1) (heap.set pos n) s pos n
      (by rw [List.length_set]; exact hpos)
    rwa [List.set_set] at h
  | succ fuel ih =>
    intro s heap pos newitem hpos
    rw [siftupLoop]
    by_cases hc : 2 * pos + 1 < heap.length
    · simp only [if_pos hc]
      by_cases hb : (decide (2 * pos + 1 + 1 < heap.length) &&
          !hlt (heap.getD (2 * pos + 1) hdflt) (heap.getD (2 * pos + 1 + 1) hdflt)) = true
      · simp only [hb, if_true]
        have hcp : 2 * pos + 1 + 1 < heap.length := by
          have := (Bool.and_eq_true_iff.mp hb).1
          exact of_decide_eq_true this
        have hrec := ih s (heap.set pos (heap.getD (2 * pos + 1 + 1) hdflt)) (2 * pos + 1 + 1)
          newitem (by rw [List.length_set]; exact hcp)
        refine hrec.trans ?_
        exact set_set_perm heap pos (2 * pos + 1 + 1) newitem hpos hcp (by omega)
      · simp only [hb, if_false]
        have hrec := ih s (heap.set pos (heap.getD (2 * pos + 1) hdflt)) (2 * pos + 1)
          newitem (by rw [List.length_set]; exact hc)
        refine hrec.trans ?_
        exact set_set_perm heap pos (2 * pos + 1) newitem hpos hc (by omega)
    · simp only [if_neg hc]
      have h := siftdownLoop_perm (pos + 1) (heap.set pos newitem) s pos newitem
        (by rw [List.length_set]; exact hpos)
      rwa [List.set_set] at h

theorem set_append_singleton {α : Type} (l : List α) (a b : α) :
    (l ++ [a]).set l.length b = l ++ [b] := by
  induction l with
  | nil => rfl
  | cons x t ih => simp [ih]

theorem heappush_perm (heap : List HNode) (item : HNode) :
    List.Perm (heappush heap item) (item :: heap) := by
  unfold heappush
  have h := siftdownLoop_perm (heap.length + 1) (heap ++ [item]) 0 heap.length item (by simp)
  rw [set_append_singleton] at h
  exact h.trans (List.perm_append_singleton item heap)

theorem heappop_eq_none_iff (heap : List HNode) : heappop heap = none ↔ heap = [] := by
  unfold heappop
  cases hl : heap.getLast? with
  | none =>
    simp only [true_iff]
    cases heap with
    | nil => rfl
    | cons a t => simp [List.getLast?_concat, List.getLast?] at hl
  | some lastelt =>
    have hne : heap ≠ [] := by
      intro hh
      subst hh
      simp at hl
    cases heap.dropLast with
    | nil => simp [hne]
    | cons r0 t => simp [hne]

theorem heappop_perm (heap : List HNode) (r : HNode) (rest : List HNode)
    (h : heappop heap = some (r, rest)) : List.Perm heap (r :: rest) := by
  unfold heappop at h
  cases hl : heap.getLast? with
  | none =>
    rw [hl] at h
    cases h
  | some lastelt =>
    rw [hl] at h
    have hne : heap ≠ [] := by
      intro hh
      subst hh
      simp at hl
    have hlast : lastelt = heap.getLast hne := by
      rw [List.getLast?_eq_getLast heap hne] at hl
      injection hl.symm
    have hsplit : heap = heap.dropLast ++ [lastelt] := by
      rw [hlast]
      exact (List.dropLast_append_getLast hne).symm
    cases hd : heap.dropLast with
    | nil =>
      rw [hd] at h
      injection h with h'
      injection h' with h1 h2
      subst h1
      subst h2
      rw [hsplit, hd]
      exact List.Perm.refl _
    | cons r0 t =>
      rw [hd] at h
      simp only [Option.some.injEq, Prod.mk.injEq] at h
      obtain ⟨hr, hrest⟩ := h
      subst hr
      have hset : ((r0 :: t).set 0 lastelt) = lastelt :: t := rfl
      rw [hset] at hrest
      have hperm := siftupLoop_perm (lastelt :: t).length 0 (lastelt :: t) 0 lastelt (by simp)
      rw [hrest, List.set_cons_zero] at hperm
      have step1 : List.Perm heap (lastelt :: r0 :: t) := by
        rw [hsplit, hd]
        exact List.perm_append_singleton lastelt (r0 :: t)
      have step2 : List.Perm (lastelt :: r0 :: t) (r0 :: lastelt :: t) :=
        List.Perm.swap r0 lastelt t
      exact (step1.trans step2).trans (hperm.symm.cons r0)

/-! ## Leaf characters through the merge loop -/

/-- The characters at the leaves of a node, in left-to-right traversal order. -/
def HNode.chars : HNode → List Char
  | .leaf c _ => [c]
  | .internal _ l r => l.chars ++ r.chars

/-- The multiset of leaf characters across a whole heap. -/
def heapChars (h : List HNode) : Multiset Char :=
  (h.map (fun t => (t.chars : Multiset Char))).sum

theorem heapChars_perm {h h' : List HNode} (hp : List.Perm h h') :
    heapChars h = heapChars h' :=
  (hp.map _).sum_eq

theorem heapChars_cons (x : HNode) (h : List HNode) :
    heapChars (x :: h) = ↑x.chars + heapChars h := by
  simp [heapChars]

theorem heapChars_heappush (h : List HNode) (x : HNode) :
    heapChars (heappush h x) = ↑x.chars + heapChars h := by
  rw [heapChars_perm (heappush_perm h x), heapChars_cons]

theorem heapChars_heappop {h : List HNode} {r : HNode} {rest : List HNode}
    (hp : heappop h = some (r, rest)) : heapChars h = ↑r.chars + heapChars rest := by
  rw [heapChars_perm (heappop_perm h r rest hp), heapChars_cons]

theorem heappush_length (h : List HNode) (x : HNode) :
    (heappush h x).length = h.length + 1 := by
  have := (heappush_perm h x).length_eq
  simpa using this

theorem heappop_length {h : List HNode} {r : HNode} {rest : List HNode}
    (hp : heappop h = some (r, rest)) : h.length = rest.length + 1 := by
  have := (heappop_perm h r rest hp).length_eq
  simpa using this

theorem heappop_of_long {h : List HNode} (hl : 1 < h.length) :
    ∃ left hA right hB, heappop h = some (left, hA) ∧ heappop hA = some (right, hB) := by
  cases hp1 : heappop h with
  | none =>
    exfalso
    have := (heappop_eq_none_iff h).mp hp1
    subst this
    simp at hl
  | some pr =>
    obtain ⟨left, hA⟩ := pr
    cases hp2 : heappop hA with
    | none =>
      exfalso
      have hAnil := (heappop_eq_none_iff hA).mp hp2
      have hlen := heappop_length hp1
      subst hAnil
      simp at hlen
      omega
    | some pr2 =>
      obtain ⟨right, hB⟩ := pr2
      exact ⟨left, hA, right, hB, rfl, hp2⟩

theorem mergeLoop_succ_eq {fuel : Nat} {h hA hB : List HNode} {left right : HNode}
    (hl : 1 < h.length) (hp1 : heappop h = some (left, hA))
    (hp2 : heappop hA = some (right, hB)) :
    mergeLoop (fuel + 1) h =
      mergeLoop fuel (heappush hB (.internal (left.freq + right.freq) left right)) := by
  rw [mergeLoop]
  simp only [if_pos (by omega : h.length > 1), hp1, hp2]

theorem mergeLoop_heapChars : ∀ (fuel : Nat) (h : List HNode),
    heapChars (mergeLoop fuel h) = heapChars h := by
  intro fuel
  induction fuel with
  | zero => intro h; rfl
  | succ fuel ih =>
    intro h
    by_cases hl : 1 < h.length
    · obtain ⟨left, hA, right, hB, hp1, hp2⟩ := heappop_of_long hl
      rw [mergeLoop_succ_eq hl hp1 hp2]
      rw [ih, heapChars_heappush, heapChars_heappop hp1, heapChars_heappop hp2]
      show (↑(left.chars ++ right.chars) : Multiset Char) + heapChars hB = _
      rw [← Multiset.coe_add]
      exact add_assoc _ _ _
    · rw [mergeLoop]
      simp only [if_neg (by omega : ¬ h.length > 1)]

theorem mergeLoop_short (fuel : Nat) (h : List HNode) (hl : h.length ≤ 1) :
    mergeLoop fuel h = h := by
  cases fuel with
  | zero => rfl
  | succ fuel =>
    rw [mergeLoop]
    simp only [if_neg (by omega : ¬ h.length > 1)]

theorem mergeLoop_internal : ∀ (fuel : Nat) (h : List HNode), 1 < h.length →
    h.length ≤ fuel + 1 → ∃ f l r, mergeLoop fuel h = [HNode.internal f l r] := by
  intro fuel
  induction fuel with
  | zero =>
    intro h h1 h2
    omega
  | succ fuel ih =>
    intro h hgt hle
    obtain ⟨left, hA, right, hB, hp1, hp2⟩ := heappop_of_long hgt
    rw [mergeLoop_succ_eq hgt hp1 hp2]
    have e1 := heappop_length hp1
    have e2 := heappop_length hp2
    have hlen : (heappush hB (.internal (left.freq + right.freq) left right)).length =
        h.length - 1 := by
      rw [heappush_length]
      omega
    by_cases hgt2 : 1 < (heappush hB (.internal (left.freq + right.freq) left right)).length
    · exact ih _ hgt2 (by omega)
    · have hBnil : hB = [] := by
        apply List.length_eq_zero.mp
        have := heappush_length hB (.internal (left.freq + right.freq) left right)
        omega
      subst hBnil
      rw [mergeLoop_short fuel _ (by omega)]
      exact ⟨left.freq + right.freq, left, right, rfl⟩

/-! ## Lemmas about the frequency table -/

theorem incr_map_fst_of_isSome {acc : List (Char × Nat)} {c : Char}
    (h : (dlookup c acc).isSome) : (incr acc c).map Prod.fst = acc.map Prod.fst := by
  unfold incr
  cases hd : dlookup c acc with
  | none => simp [hd] at h
  | some n => exact map_fst_dictSet_of_isSome _ (by simp [hd])

theorem incr_map_fst_of_none {acc : List (Char × Nat)} {c : Char}
    (h : dlookup c acc = none) : (incr acc c).map Prod.fst = acc.map Prod.fst ++ [c] := by
  unfold incr
  rw [h]
  simp

theorem incr_nodup {acc : List (Char × Nat)} (c : Char)
    (h : (acc.map Prod.fst).Nodup) : ((incr acc c).map Prod.fst).Nodup := by
  cases hd : dlookup c acc with
  | some n =>
    rw [incr_map_fst_of_isSome (by simp [hd])]
    exact h
  | none =>
    rw [incr_map_fst_of_none hd]
    rw [dlookup_eq_none_iff] at hd
    simp [List.nodup_append, h, hd]

theorem counter_keys_nodup (data : List Char) : ((counter data).map Prod.fst).Nodup := by
  suffices H : ∀ (l : List Char) (acc : List (Char × Nat)), (acc.map Prod.fst).Nodup →
      ((l.foldl incr acc).map Prod.fst).Nodup by
    exact H data [] (by simp)
  intro l
  induction l with
  | nil => intro acc h; exact h
  | cons c t ih =>
    intro acc h
    exact ih _ (incr_nodup c h)

theorem mem_counter_keys (data : List Char) (x : Char) :
    x ∈ (counter data).map Prod.fst ↔ x ∈ data := by
  suffices H : ∀ (l : List Char) (acc : List (Char × Nat)),
      x ∈ (l.foldl incr acc).map Prod.fst ↔ x ∈ acc.map Prod.fst ∨ x ∈ l by
    have := H data []
    simpa [counter] using this
  intro l
  induction l with
  | nil => intro acc; simp
  | cons c t ih =>
    intro acc
    rw [List.foldl_cons, ih]
    have hstep : x ∈ (incr acc c).map Prod.fst ↔ x ∈ acc.map Prod.fst ∨ x = c := by
      cases hd : dlookup c acc with
      | some n =>
        rw [incr_map_fst_of_isSome (by simp [hd])]
        constructor
        · exact Or.inl
        · rintro (hx | rfl)
          · exact hx
          · rw [← dlookup_isSome_iff]
            simp [hd]
      | none =>
        rw [incr_map_fst_of_none hd]
        simp
    rw [hstep]
    simp only [List.mem_cons]
    tauto

theorem counter_ne_nil {data : List Char} (h : data ≠ []) : counter data ≠ [] := by
  intro hc
  match data, h with
  | c :: t, _ =>
    have : c ∈ (counter (c :: t)).map Prod.fst := (mem_counter_keys _ c).mpr (by simp)
    rw [hc] at this
    simp at this

/-! ## Lemmas about the code-assignment walk -/

theorem genCodes_code_extends (t : HNode) : ∀ (pre : List Char) (p : Char × List Char),
    p ∈ genCodes t pre → pre <+: p.2 := by
  induction t with
  | leaf c f =>
    intro pre p hp
    simp only [genCodes, List.mem_singleton] at hp
    subst hp
    exact List.prefix_refl _
  | internal f l r ihl ihr =>
    intro pre p hp
    rw [genCodes, List.mem_append] at hp
    rcases hp with h | h
    · exact (List.prefix_append pre ['0']).trans (ihl _ p h)
    · exact (List.prefix_append pre ['1']).trans (ihr _ p h)

theorem genCodes_pairwise (t : HNode) : ∀ pre : List Char,
    (genCodes t pre).Pairwise (fun p q => ¬ p.2 <+: q.2 ∧ ¬ q.2 <+: p.2) := by
  induction t with
  | leaf c f =>
    intro pre
    simp [genCodes]
  | internal f l r ihl ihr =>
    intro pre
    rw [genCodes, List.pairwise_append]
    refine ⟨ihl _, ihr _, ?_⟩
    intro p hp q hq
    have hp0 := genCodes_code_extends l _ p hp
    have hq1 := genCodes_code_extends r _ q hq
    constructor
    · intro hcon
      have h0 : (pre ++ ['0']) <+: q.2 := hp0.trans hcon
      have heq : (pre ++ ['0']) = (pre ++ ['1']) :=
        (List.prefix_of_prefix_length_le h0 hq1 (by simp)).eq_of_length (by simp)
      have := List.append_cancel_left heq
      simp at this
    · intro hcon
      have h1 : (pre ++ ['1']) <+: p.2 := hq1.trans hcon
      have heq : (pre ++ ['1']) = (pre ++ ['0']) :=
        (List.prefix_of_prefix_length_le h1 hp0 (by simp)).eq_of_length (by simp)
      have := List.append_cancel_left heq
      simp at this

theorem genCodes_map_fst (t : HNode) : ∀ pre : List Char,
    (genCodes t pre).map Prod.fst = t.chars := by
  induction t with
  | leaf c f => intro pre; rfl
  | internal f l r ihl ihr =>
    intro pre
    simp [genCodes, HNode.chars, ihl, ihr]

theorem genCodes_codes_bits (t : HNode) : ∀ pre : List Char, (∀ b ∈ pre, isBit b = true) →
    ∀ p ∈ genCodes t pre, ∀ b ∈ p.2, isBit b = true := by
  induction t with
  | leaf c f =>
    intro pre hpre p hp
    simp only [genCodes, List.mem_singleton] at hp
    subst hp
    exact hpre
  | internal f l r ihl ihr =>
    intro pre hpre p hp
    have h0 : ∀ b ∈ pre ++ ['0'], isBit b = true := by
      intro b hb
      rcases List.mem_append.mp hb with h | h
      · exact hpre b h
      · simp at h
        subst h
        rfl
    have h1 : ∀ b ∈ pre ++ ['1'], isBit b = true := by
      intro b hb
      rcases List.mem_append.mp hb with h | h
      · exact hpre b h
      · simp at h
        subst h
        rfl
    rw [genCodes, List.mem_append] at hp
    rcases hp with h | h
    · exact ihl _ h0 p h
    · exact ihr _ h1 p h

theorem genCodes_lookup (t : HNode) : ∀ (pre : List Char) (c : Char), c ∈ t.chars →
    (dlookup c (genCodes t pre)).isSome := by
  induction t with
  | leaf c0 f =>
    intro pre c hc
    simp only [HNode.chars, List.mem_singleton] at hc
    subst hc
    simp [genCodes, dlookup]
  | internal f l r ihl ihr =>
    intro pre c hc
    rw [genCodes]
    rcases List.mem_append.mp hc with h | h
    · have := ihl (pre ++ ['0']) c h
      rw [Option.isSome_iff_exists] at this
      obtain ⟨v, hv⟩ := this
      rw [dlookup_append_of_some hv]
      rfl
    · cases hL : dlookup c (genCodes l (pre ++ ['0'])) with
      | some v =>
        rw [dlookup_append_of_some hL]
        rfl
      | none =>
        rw [dlookup_append_of_none hL]
        exact ihr _ c h

theorem genCodes_internal_ne_nil (f : Nat) (l r : HNode) :
    ∀ p ∈ genCodes (.internal f l r) [], p.2 ≠ [] := by
  intro p hp hnil
  rw [genCodes, List.mem_append] at hp
  rcases hp with h | h
  · have := genCodes_code_extends l _ p h
    rw [hnil] at this
    have := this.length_le
    simp at this
  · have := genCodes_code_extends r _ p h
    rw [hnil] at this
    have := this.length_le
    simp at this

/-! ## The code table produced by `_build_huffman_tree` -/

theorem foldl_heappush_length (l : List (Char × Nat)) : ∀ acc : List HNode,
    (l.foldl (fun h p => heappush h (.leaf p.1 p.2)) acc).length = acc.length + l.length := by
  induction l with
  | nil => simp
  | cons p t ih =>
    intro acc
    rw [List.foldl_cons, ih, heappush_length]
    simp
    omega

theorem foldl_heappush_chars (l : List (Char × Nat)) : ∀ acc : List HNode,
    heapChars (l.foldl (fun h p => heappush h (.leaf p.1 p.2)) acc) =
      heapChars acc + ↑(l.map Prod.fst) := by
  induction l with
  | nil =>
    intro acc
    simp
  | cons p t ih =>
    intro acc
    rw [List.foldl_cons, ih, heapChars_heappush]
    show (↑[p.1] : Multiset Char) + heapChars acc + ↑(t.map Prod.fst) = _
    simp only [List.map_cons, ← Multiset.cons_coe, ← Multiset.singleton_add, Multiset.coe_nil]
    abel

theorem counter_single_all_eq {data : List Char} (hL : (counter data).length = 1) :
    ∀ c ∈ data, ∀ c' ∈ data, c = c' := by
  obtain ⟨k, hk⟩ : ∃ k, (counter data).map Prod.fst = [k] := by
    apply List.length_eq_one.mp
    simp [hL]
  intro c hc c' hc'
  have h1 := (mem_counter_keys data c).mpr hc
  have h2 := (mem_counter_keys data c').mpr hc'
  rw [hk] at h1 h2
  simp at h1 h2
  rw [h1, h2]

theorem build_single_eq {c0 : Char} {t : List Char}
    (hL : (counter (c0 :: t)).length = 1) :
    build_huffman_tree (c0 :: t) = [(c0, ['0'])] := by
  unfold build_huffman_tree
  simp only []
  rw [if_pos hL]

theorem build_root_spec {data : List Char} (hne : data ≠ [])
    (hL : ¬ (counter data).length = 1) :
    ∃ root : HNode, (∃ f l r, root = HNode.internal f l r) ∧
      build_huffman_tree data = genCodes root [] ∧
      root.chars.Nodup ∧ (∀ c, c ∈ root.chars ↔ c ∈ data) := by
  have hcne : counter data ≠ [] := counter_ne_nil hne
  have h0 : (counter data).length ≠ 0 := by
    simpa [List.length_eq_zero] using hcne
  have hL2 : 1 < (counter data).length := by omega
  have hlen : ((counter data).foldl (fun h p => heappush h (.leaf p.1 p.2)) []).length
      = (counter data).length := by
    rw [foldl_heappush_length]
    simp
  obtain ⟨f, l, r, hmerge⟩ := mergeLoop_internal
    ((counter data).foldl (fun h p => heappush h (.leaf p.1 p.2)) []).length
    ((counter data).foldl (fun h p => heappush h (.leaf p.1 p.2)) [])
    (by omega) (by omega)
  have hchars : heapChars [HNode.internal f l r] = ↑((counter data).map Prod.fst) := by
    rw [← hmerge, mergeLoop_heapChars, foldl_heappush_chars]
    simp [heapChars]
  have hroot : ((HNode.internal f l r).chars : Multiset Char)
      = ↑((counter data).map Prod.fst) := by
    simpa [heapChars] using hchars
  have hperm := Multiset.coe_eq_coe.mp hroot
  have hnodup : (HNode.internal f l r).chars.Nodup :=
    hperm.symm.nodup (counter_keys_nodup data)
  refine ⟨HNode.internal f l r, ⟨f, l, r, rfl⟩, ?_, hnodup, ?_⟩
  · unfold build_huffman_tree
    simp only []
    rw [if_neg hL, hmerge]
    exact dictFromList_eq_self (by rw [genCodes_map_fst]; exact hnodup)
  · intro c
    rw [hperm.mem_iff]
    exact mem_counter_keys data c

theorem build_table_spec {data : List Char} (hne : data ≠ []) :
    (∀ c ∈ data, ∃ code, dlookup c (build_huffman_tree data) = some code) ∧
    (build_huffman_tree data).Pairwise (fun p q => ¬ p.2 <+: q.2 ∧ ¬ q.2 <+: p.2) ∧
    (∀ p ∈ build_huffman_tree data, p.2 ≠ [] ∧ ∀ b ∈ p.2, isBit b = true) ∧
    ((build_huffman_tree data).map Prod.fst).Nodup := by
  by_cases hL : (counter data).length = 1
  · obtain ⟨c0, t, rfl⟩ : ∃ c0 t, data = c0 :: t := by
      match data, hne with
      | c :: t, _ => exact ⟨c, t, rfl⟩
    rw [build_single_eq hL]
    have hall := counter_single_all_eq hL
    refine ⟨?_, ?_, ?_, ?_⟩
    · intro c hc
      have hc0 : c = c0 := hall c hc c0 (by simp)
      subst hc0
      exact ⟨['0'], by simp [dlookup]⟩
    · simp
    · intro p hp
      simp only [List.mem_singleton] at hp
      subst hp
      refine ⟨by simp, ?_⟩
      intro b hb
      simp only [List.mem_singleton] at hb
      subst hb
      rfl
    · simp
  · obtain ⟨root, ⟨f, l, r, hrfl⟩, htable, hnodup, hmem⟩ := build_root_spec hne hL
    rw [htable]
    refine ⟨?_, genCodes_pairwise root [], ?_, ?_⟩
    · intro c hc
      have hs : (dlookup c (genCodes root [])).isSome :=
        genCodes_lookup root [] c ((hmem c).mpr hc)
      rw [Option.isSome_iff_exists] at hs
      exact hs
    · intro p hp
      refine ⟨?_, genCodes_codes_bits root [] (by simp) p hp⟩
      subst hrfl
      exact genCodes_internal_ne_nil f l r p hp
    · rw [genCodes_map_fst]
      exact hnodup

/-! ## Encoding and greedy decoding -/

theorem joinCodes_nil_eq (codes : List (Char × List Char)) : joinCodes codes [] = .ok [] := rfl

theorem joinCodes_cons_inv {codes : List (Char × List Char)} {c : Char} {t bits : List Char}
    (h : joinCodes codes (c :: t) = .ok bits) :
    ∃ code tail, dlookup c codes = some code ∧ joinCodes codes t = .ok tail ∧
      bits = code ++ tail := by
  rw [joinCodes] at h
  split at h
  next code heq =>
    split at h
    next tail heq2 =>
      injection h with h'
      exact ⟨code, tail, heq, heq2, h'.symm⟩
    next e heq2 => cases h
  next heq => cases h

theorem joinCodes_ok {codes : List (Char × List Char)} : ∀ {data : List Char},
    (∀ c ∈ data, ∃ code, dlookup c codes = some code) →
    ∃ bits, joinCodes codes data = .ok bits := by
  intro data
  induction data with
  | nil => exact fun _ => ⟨[], rfl⟩
  | cons c t ih =>
    intro h
    obtain ⟨code, hcode⟩ := h c (by simp)
    obtain ⟨bits, hbits⟩ := ih (fun c' hc' => h c' (by simp [hc']))
    refine ⟨code ++ bits, ?_⟩
    rw [joinCodes, hcode, hbits]

theorem joinCodes_bits {codes : List (Char × List Char)}
    (hb : ∀ p ∈ codes, ∀ b ∈ p.2, isBit b = true) :
    ∀ {data bits : List Char}, joinCodes codes data = .ok bits →
      ∀ b ∈ bits, isBit b = true := by
  intro data
  induction data with
  | nil =>
    intro bits h b hbmem
    rw [joinCodes_nil_eq] at h
    injection h with h'
    subst h'
    simp at hbmem
  | cons c t ih =>
    intro bits h b hbmem
    obtain ⟨code, tail, hcode, htail, rfl⟩ := joinCodes_cons_inv h
    rcases List.mem_append.mp hbmem with hm | hm
    · exact hb _ (dlookup_mem hcode) b hm
    · exact ih htail b hm

theorem joinCodes_ne_nil {codes : List (Char × List Char)}
    (hcne : ∀ p ∈ codes, p.2 ≠ []) :
    ∀ {data bits : List Char}, joinCodes codes data = .ok bits → data ≠ [] → bits ≠ [] := by
  intro data
  match data with
  | [] =>
    intro bits h hne
    exact absurd rfl hne
  | c :: t =>
    intro bits h _
    obtain ⟨code, tail, hcode, htail, rfl⟩ := joinCodes_cons_inv h
    have := hcne _ (dlookup_mem hcode)
    intro hcon
    rw [List.append_eq_nil] at hcon
    exact this hcon.1

theorem decodeLoop_step_some {rev : List (List Char × Char)} {buf : List Char} {bit : Char}
    {rest : List Char} {ch : Char} (h : dlookup (buf ++ [bit]) rev = some ch) :
    decodeLoop rev buf (bit :: rest) = ch :: decodeLoop rev [] rest := by
  simp only [decodeLoop, h]

theorem decodeLoop_step_none {rev : List (List Char × Char)} {buf : List Char} {bit : Char}
    {rest : List Char} (h : dlookup (buf ++ [bit]) rev = none) :
    decodeLoop rev buf (bit :: rest) = decodeLoop rev (buf ++ [bit]) rest := by
  simp only [decodeLoop, h]

theorem decodeLoop_code (rev : List (List Char × Char)) (code : List Char) (ch : Char)
    (hfull : dlookup code rev = some ch)
    (hpref : ∀ p, p <+: code → p ≠ code → dlookup p rev = none) :
    ∀ cd buf rest : List Char, buf ++ cd = code → cd ≠ [] →
      decodeLoop rev buf (cd ++ rest) = ch :: decodeLoop rev [] rest := by
  intro cd
  induction cd with
  | nil =>
    intro buf rest _ hne
    exact absurd rfl hne
  | cons b cd' ih =>
    intro buf rest hcode _
    show decodeLoop rev buf (b :: (cd' ++ rest)) = _
    by_cases hcd : cd' = []
    · subst hcd
      have hb : buf ++ [b] = code := by simpa using hcode
      rw [decodeLoop_step_some (hb ▸ hfull)]
      rfl
    · have hbne : (buf ++ [b]) ≠ code := by
        intro hcon
        rw [← hcode] at hcon
        have := List.append_cancel_left hcon
        simp only [List.cons.injEq] at this
        exact hcd this.2.symm
      have hbpre : (buf ++ [b]) <+: code := by
        rw [← hcode]
        refine ⟨cd', by simp⟩
      rw [decodeLoop_step_none (hpref _ hbpre hbne)]
      exact ih (buf ++ [b]) rest (by simpa using hcode) hcd

theorem decodeLoop_join {tb : List (Char × List Char)} {rev : List (List Char × Char)}
    (H : ∀ c code, dlookup c tb = some code → dlookup code rev = some c ∧ code ≠ [] ∧
      ∀ p, p <+: code → p ≠ code → dlookup p rev = none) :
    ∀ data bits : List Char, joinCodes tb data = .ok bits →
      ∀ tail, decodeLoop rev [] (bits ++ tail) = data ++ decodeLoop rev [] tail := by
  intro data
  induction data with
  | nil =>
    intro bits h tail
    rw [joinCodes_nil_eq] at h
    injection h with h'
    subst h'
    simp
  | cons c t ih =>
    intro bits h tail
    obtain ⟨code, tail2, hcode, htail, rfl⟩ := joinCodes_cons_inv h
    obtain ⟨hrev, hne, hpref⟩ := H c code hcode
    rw [List.append_assoc,
      decodeLoop_code rev code c hrev hpref code [] (tail2 ++ tail) (by simp) hne,
      ih tail2 htail tail]
    rfl

/-! ## The reverse table -/

theorem table_codes_nodup {tb : List (Char × List Char)}
    (hpw : tb.Pairwise (fun p q => ¬ p.2 <+: q.2 ∧ ¬ q.2 <+: p.2)) :
    (tb.map Prod.snd).Nodup := by
  rw [List.Nodup, List.pairwise_map]
  refine hpw.imp ?_
  intro p q hpq hcon
  exact hpq.1 (hcon ▸ List.prefix_refl _)

theorem reverseCodes_eq {tb : List (Char × List Char)}
    (hpw : tb.Pairwise (fun p q => ¬ p.2 <+: q.2 ∧ ¬ q.2 <+: p.2)) :
    reverseCodes tb = tb.map (fun p => (p.2, p.1)) := by
  unfold reverseCodes
  apply dictFromList_eq_self
  rw [List.map_map]
  have hc : (Prod.fst ∘ fun p : Char × List Char => (p.2, p.1)) = Prod.snd := rfl
  rw [hc]
  exact table_codes_nodup hpw

theorem rev_lookup_code {tb : List (Char × List Char)} {c : Char} {code : List Char}
    (hnodup : (tb.map Prod.snd).Nodup) (hmem : (c, code) ∈ tb) :
    dlookup code (tb.map (fun p => (p.2, p.1))) = some c := by
  induction tb with
  | nil => simp at hmem
  | cons p rest ih =>
    obtain ⟨c0, code0⟩ := p
    simp only [List.map_cons, List.nodup_cons] at hnodup
    simp only [List.map_cons]
    by_cases hc : code0 = code
    · subst hc
      have hgoal : dlookup code0
          (((code0, c0) : List Char × Char) :: rest.map (fun p => (p.2, p.1))) = some c0 := by
        show (if code0 = code0 then some c0 else _) = some c0
        rw [if_pos rfl]
      rcases List.mem_cons.mp hmem with heq | hmem'
      · injection heq with h1 h2
        rw [h1]
        exact hgoal
      · exfalso
        have : code0 ∈ rest.map Prod.snd := by
          have := List.mem_map_of_mem Prod.snd hmem'
          simpa using this
        exact hnodup.1 this
    · simp only [dlookup, if_neg hc]
      apply ih hnodup.2
      rcases List.mem_cons.mp hmem with heq | hmem'
      · exfalso
        injection heq with h1 h2
        exact hc h2.symm
      · exact hmem'

theorem rev_lookup_not_code {tb : List (Char × List Char)} {p : List Char}
    (hnotin : p ∉ tb.map Prod.snd) :
    dlookup p (tb.map (fun q => (q.2, q.1))) = none := by
  rw [dlookup_eq_none_iff, List.map_map]
  have hc : (Prod.fst ∘ fun q : Char × List Char => (q.2, q.1)) = Prod.snd := rfl
  rw [hc]
  exact hnotin

theorem table_rev_spec {tb : List (Char × List Char)}
    (hpw : tb.Pairwise (fun p q => ¬ p.2 <+: q.2 ∧ ¬ q.2 <+: p.2))
    (hcode : ∀ p ∈ tb, p.2 ≠ [] ∧ ∀ b ∈ p.2, isBit b = true) :
    ∀ c code, dlookup c tb = some code →
      dlookup code (reverseCodes tb) = some c ∧ code ≠ [] ∧
      ∀ p, p <+: code → p ≠ code → dlookup p (reverseCodes tb) = none := by
  intro c code hc
  have hmem := dlookup_mem hc
  have hnodup := table_codes_nodup hpw
  rw [reverseCodes_eq hpw]
  refine ⟨rev_lookup_code hnodup hmem, (hcode _ hmem).1, ?_⟩
  intro p hp hpne
  apply rev_lookup_not_code
  intro hcon
  rw [List.mem_map] at hcon
  obtain ⟨q, hq, hq2⟩ := hcon
  have hqne : q ≠ (c, code) := by
    intro hh
    subst hh
    exact hpne hq2.symm
  have hsym : Symmetric (fun p q : Char × List Char => ¬ p.2 <+: q.2 ∧ ¬ q.2 <+: p.2) := by
    intro a b hab
    exact ⟨hab.2, hab.1⟩
  have hR := List.Pairwise.forall hsym hpw hq hmem hqne
  exact hR.1 (hq2 ▸ hp)

/-! ## `_compress` / `_decompress` round trip -/

theorem compress_inv {data enc : List Char} {tb : List (Char × List Char)}
    (h : _compress data = .ok (enc, tb)) :
    tb = build_huffman_tree data ∧
    ∃ bits v, joinCodes (build_huffman_tree data) data = .ok bits ∧
      parseBinE (bits ++ List.replicate ((8 - bits.length % 8) % 8) '0') = .ok v ∧
      enc = b64encode (toBytesBE
        (((bits ++ List.replicate ((8 - bits.length % 8) % 8) '0').length + 7) / 8) v) := by
  unfold _compress at h
  simp only [] at h
  split at h
  next e heq => cases h
  next bits heq =>
    split at h
    next e heq2 => cases h
    next v heq2 =>
      injection h with h'
      injection h' with h1 h2
      exact ⟨h2.symm, bits, v, heq, heq2, h1.symm⟩

theorem decompress_of_decode {q : List Char} {bytes : List Nat}
    {tb : List (Char × List Char)} (h : b64decodeE q = .ok bytes) :
    _decompress q tb = .ok (decodeLoop (reverseCodes tb) []
      (zfill (natToBin (fromBytesBE bytes)) (bytes.length * 8))) := by
  unfold _decompress
  rw [h]

theorem decompress_of_decode_error {q : List Char} {tb : List (Char × List Char)}
    (h : b64decodeE q = .error ()) : _decompress q tb = .error () := by
  unfold _decompress
  rw [h]

theorem compress_decompress {data enc : List Char} {tb : List (Char × List Char)}
    (hne : data ≠ []) (h : _compress data = .ok (enc, tb)) :
    ∃ bits, joinCodes tb data = .ok bits ∧ tb = build_huffman_tree data ∧
      _decompress enc tb =
        .ok (data ++ decodeLoop (reverseCodes tb) []
          (List.replicate ((8 - bits.length % 8) % 8) '0')) := by
  obtain ⟨htb, bits, v, hjoin, hparse, henc⟩ := compress_inv h
  subst htb
  obtain ⟨hlookup, hpw, hcodeprops, hkeys⟩ := build_table_spec hne
  refine ⟨bits, hjoin, rfl, ?_⟩
  set m := (8 - bits.length % 8) % 8 with hm
  set padded := bits ++ List.replicate m '0' with hpadded
  have hparse' : padded ≠ [] ∧ padded.all isBit = true ∧ v = parseBin padded := by
    unfold parseBinE at hparse
    split at hparse
    next hcond =>
      injection hparse with h'
      exact ⟨hcond.1, hcond.2, h'.symm⟩
    next hcond => cases hparse
  obtain ⟨hpne, hpbits, rfl⟩ := hparse'
  have hLmod : padded.length = bits.length + m := by simp [hpadded]
  have hdvd : (bits.length + m) % 8 = 0 := by omega
  set k := (padded.length + 7) / 8 with hk
  have hk8 : k * 8 = padded.length := by
    rw [hk, hLmod]
    omega
  have hk1 : 1 ≤ k := by
    have : padded.length ≠ 0 := by simpa [List.length_eq_zero] using hpne
    omega
  have hv : parseBin padded < 2 ^ (k * 8) := by
    rw [hk8]
    exact parseBin_lt padded
  have hv256 : parseBin padded < 256 ^ k := by
    have h1 : (256 : Nat) ^ k = 2 ^ (k * 8) := by
      rw [mul_comm, pow_mul]
      norm_num
    rw [h1]
    exact hv
  rw [henc, decompress_of_decode (b64decode_encode _ (toBytes_lt _ _))]
  have hbytes_len : (toBytesBE k (parseBin padded)).length = k := toBytes_length k _
  have hfrom : fromBytesBE (toBytesBE k (parseBin padded)) = parseBin padded := by
    rw [fromBytes_toBytes_mod, Nat.mod_eq_of_lt hv256]
  have hzfill : zfill (natToBin (fromBytesBE (toBytesBE k (parseBin padded))))
      ((toBytesBE k (parseBin padded)).length * 8) = padded := by
    rw [hfrom, hbytes_len, zfill_natToBin _ _ hv (by omega), hk8,
      natBits_parseBin padded hpbits]
  rw [hzfill, hpadded,
    decodeLoop_join (table_rev_spec hpw hcodeprops) data bits hjoin (List.replicate m '0')]

/-! ## Lemmas about the short-code generator -/

theorem genLoop_ok_inv {env : Env} {url : List Char} {c2u : List (List Char × List Char)} :
    ∀ (rem i : Nat) {sc : List Char}, genLoop env url c2u i rem = .ok sc →
    ∃ j, sc = seedPart env url ++ env.suffix j ∧ dlookup sc c2u = none := by
  intro rem
  induction rem with
  | zero =>
    intro i sc h
    cases h
  | succ rem ih =>
    intro i sc h
    rw [genLoop] at h
    by_cases hc : (dlookup (seedPart env url ++ env.suffix i) c2u).isSome
    · rw [if_pos hc] at h
      exact ih (i + 1) h
    · rw [if_neg hc] at h
      injection h with h'
      subst h'
      exact ⟨i, rfl, Option.not_isSome_iff_eq_none.mp hc⟩

theorem genLoop_exhaust {env : Env} {url : List Char} {c2u : List (List Char × List Char)} :
    ∀ (rem i : Nat),
    (∀ j, i ≤ j → j < i + rem → (dlookup (seedPart env url ++ env.suffix j) c2u).isSome) →
    genLoop env url c2u i rem = .error () := by
  intro rem
  induction rem with
  | zero => intro i _; rfl
  | succ rem ih =>
    intro i hall
    rw [genLoop, if_pos (hall i (le_refl i) (by omega))]
    exact ih (i + 1) (fun j h1 h2 => hall j (by omega) (by omega))

theorem gen_sc_ne_nil {env : Env} (hwf : EnvWF env) {c2u : List (List Char × List Char)}
    {N : Nat} {url sc : List Char}
    (h : _generate_short_code env c2u N url = .ok sc) : sc ≠ [] := by
  obtain ⟨j, rfl, _⟩ := genLoop_ok_inv N 0 h
  intro hcon
  rw [List.append_eq_nil] at hcon
  have hlen := hwf j
  rw [hcon.2] at hlen
  simp at hlen

/-! ## `_compress` never fails on a non-empty input -/

theorem compress_ok_of_ne_nil {data : List Char} (hne : data ≠ []) :
    ∃ p, _compress data = .ok p := by
  obtain ⟨hlookup, hpw, hcodeprops, hkeys⟩ := build_table_spec hne
  obtain ⟨bits, hbits⟩ := joinCodes_ok hlookup
  have hbin : ∀ b ∈ bits, isBit b = true :=
    joinCodes_bits (fun p hp => (hcodeprops p hp).2) hbits
  have hbne : bits ≠ [] := joinCodes_ne_nil (fun p hp => (hcodeprops p hp).1) hbits hne
  have hpadne : (bits ++ List.replicate ((8 - bits.length % 8) % 8) '0') ≠ [] := by
    simp [hbne]
  have hpadbin : (bits ++ List.replicate ((8 - bits.length % 8) % 8) '0').all isBit = true := by
    rw [List.all_append, Bool.and_eq_true_iff]
    constructor
    · exact List.all_eq_true.mpr hbin
    · apply List.all_eq_true.mpr
      intro b hb
      rw [List.eq_of_mem_replicate hb]
      rfl
  have hparse : parseBinE (bits ++ List.replicate ((8 - bits.length % 8) % 8) '0') =
      .ok (parseBin (bits ++ List.replicate ((8 - bits.length % 8) % 8) '0')) := by
    unfold parseBinE
    rw [if_pos ⟨hpadne, hpadbin⟩]
  refine ⟨(b64encode (toBytesBE
      (((bits ++ List.replicate ((8 - bits.length % 8) % 8) '0').length + 7) / 8)
      (parseBin (bits ++ List.replicate ((8 - bits.length % 8) % 8) '0'))),
    build_huffman_tree data), ?_⟩
  unfold _compress
  simp only [hbits, hparse]

/-! ## Lemmas about `shorten_url` and `expand_url` -/

theorem shorten_known {env : Env} {s : Shortener} {url sc : List Char} {info : RecordData}
    (hknown : dlookup url s.url_to_code = some sc)
    (hinfo : dlookup sc s.compressed_data = some info) :
    shorten_url env s url = (.ok (sc, info.compressed), s) := by
  unfold shorten_url
  simp only [hknown, hinfo]

theorem shorten_fresh_ok {env : Env} {s : Shortener} {url sc cc : List Char} {s2 : Shortener}
    (hfresh : dlookup url s.url_to_code = none)
    (h : shorten_url env s url = (.ok (sc, cc), s2)) :
    ∃ tb, _generate_short_code env s.code_to_url s.max_collision_attempts url = .ok sc ∧
      _compress sc = .ok (cc, tb) ∧
      s2 = { s with
        url_to_code := dictSet s.url_to_code url sc
        code_to_url := dictSet s.code_to_url sc url
        compressed_data := dictSet s.compressed_data sc ⟨cc, tb, url⟩ } := by
  unfold shorten_url at h
  rw [hfresh] at h
  cases hgen : _generate_short_code env s.code_to_url s.max_collision_attempts url with
  | error e =>
    rw [hgen] at h
    simp only [Prod.mk.injEq] at h
    exact Except.noConfusion h.1
  | ok sc0 =>
    rw [hgen] at h
    simp only [] at h
    cases hcomp : _compress sc0 with
    | error e =>
      rw [hcomp] at h
      simp only [Prod.mk.injEq] at h
      exact Except.noConfusion h.1
    | ok pr =>
      obtain ⟨cstr, tb⟩ := pr
      rw [hcomp] at h
      simp only [Prod.mk.injEq, Except.ok.injEq] at h
      obtain ⟨⟨h1, h2⟩, h3⟩ := h
      subst h1
      subst h2
      subst h3
      exact ⟨tb, rfl, hcomp, rfl⟩

theorem shorten_ok_state {env : Env} {s : Shortener} {url : List Char}
    {res : List Char × List Char} {s2 : Shortener}
    (h : shorten_url env s url = (.ok res, s2)) :
    dlookup url s2.url_to_code = some res.1 ∧
    ∃ info, dlookup res.1 s2.compressed_data = some info ∧ info.compressed = res.2 := by
  cases hl : dlookup url s.url_to_code with
  | some sc =>
    cases hinfo : dlookup sc s.compressed_data with
    | some info =>
      rw [shorten_known hl hinfo] at h
      simp only [Prod.mk.injEq, Except.ok.injEq] at h
      obtain ⟨h1, h2⟩ := h
      subst h2
      rw [← h1]
      exact ⟨hl, info, hinfo, rfl⟩
    | none =>
      exfalso
      unfold shorten_url at h
      simp only [hl, hinfo, Prod.mk.injEq] at h
      exact Except.noConfusion h.1
  | none =>
    obtain ⟨sc, cc⟩ := res
    obtain ⟨tb, hgen, hcomp, hs2⟩ := shorten_fresh_ok hl h
    subst hs2
    refine ⟨?_, ⟨cc, tb, url⟩, ?_, rfl⟩
    · exact dlookup_dictSet_self _ _ _
    · exact dlookup_dictSet_self _ _ _

theorem shorten_error_state {env : Env} (hwf : EnvWF env) {s : Shortener} {url : List Char}
    {e : Unit} {s2 : Shortener} (h : shorten_url env s url = (.error e, s2)) : s2 = s := by
  unfold shorten_url at h
  cases hl : dlookup url s.url_to_code with
  | some sc =>
    simp only [hl] at h
    cases hinfo : dlookup sc s.compressed_data with
    | some info =>
      simp only [hinfo, Prod.mk.injEq] at h
      exact Except.noConfusion h.1
    | none =>
      simp only [hinfo, Prod.mk.injEq] at h
      exact h.2.symm
  | none =>
    simp only [hl] at h
    cases hgen : _generate_short_code env s.code_to_url s.max_collision_attempts url with
    | error e0 =>
      simp only [hgen, Prod.mk.injEq] at h
      exact h.2.symm
    | ok sc0 =>
      exfalso
      simp only [hgen] at h
      obtain ⟨p, hp⟩ := compress_ok_of_ne_nil (gen_sc_ne_nil hwf hgen)
      obtain ⟨cstr, tb⟩ := p
      simp only [hp, Prod.mk.injEq] at h
      exact Except.noConfusion h.1

theorem shorten_exhaust {env : Env} {s : Shortener} {url : List Char}
    (hfresh : dlookup url s.url_to_code = none)
    (hall : ∀ j, j < s.max_collision_attempts →
      (dlookup (seedPart env url ++ env.suffix j) s.code_to_url).isSome) :
    shorten_url env s url = (.error (), s) := by
  have hgen : _generate_short_code env s.code_to_url s.max_collision_attempts url
      = .error () := by
    unfold _generate_short_code
    exact genLoop_exhaust s.max_collision_attempts 0 (fun j _ h2 => hall j (by omega))
  unfold shorten_url
  rw [hfresh, hgen]

theorem expandLoop_some {s : Shortener} {q : List Char} :
    ∀ {records : List (List Char × RecordData)} {u : List Char},
    expandLoop s q records = some u →
    ∃ sc rec, (sc, rec) ∈ records ∧
      ∃ dec, _decompress q rec.huffman_codes = .ok dec ∧
        dlookup dec s.code_to_url = some u ∧ rec.original_url = u := by
  intro records
  induction records with
  | nil =>
    intro u h
    cases h
  | cons p rest ih =>
    intro u h
    obtain ⟨sc0, rec0⟩ := p
    rw [expandLoop] at h
    split at h
    next e heq =>
      obtain ⟨sc, rec, hmem, rest'⟩ := ih h
      exact ⟨sc, rec, List.mem_cons_of_mem _ hmem, rest'⟩
    next dec heq =>
      split at h
      next u0 heq2 =>
        split_ifs at h with hu
        · injection h with h'
          subst h'
          exact ⟨sc0, rec0, List.mem_cons_self _ _, dec, heq, heq2, hu.symm⟩
        · obtain ⟨sc, rec, hmem, rest'⟩ := ih h
          exact ⟨sc, rec, List.mem_cons_of_mem _ hmem, rest'⟩
      next heq2 =>
        obtain ⟨sc, rec, hmem, rest'⟩ := ih h
        exact ⟨sc, rec, List.mem_cons_of_mem _ hmem, rest'⟩

theorem expandLoop_skip {s : Shortener} {q : List Char} {sc0 : List Char} {rec0 : RecordData}
    {rest : List (List Char × RecordData)} (hm : recordMatches s q rec0 = false) :
    expandLoop s q ((sc0, rec0) :: rest) = expandLoop s q rest := by
  unfold recordMatches at hm
  cases hd : _decompress q rec0.huffman_codes with
  | error e => simp only [expandLoop, hd]
  | ok dec =>
    rw [hd] at hm
    simp only [] at hm
    cases hl : dlookup dec s.code_to_url with
    | none => simp only [expandLoop, hd, hl]
    | some u =>
      rw [hl] at hm
      simp only [] at hm
      simp only [expandLoop, hd, hl]
      rw [if_neg (by simpa using hm)]

theorem expandLoop_append_skip {s : Shortener} {q : List Char} :
    ∀ (A rest : List (List Char × RecordData)),
    (∀ p ∈ A, recordMatches s q p.2 = false) →
    expandLoop s q (A ++ rest) = expandLoop s q rest := by
  intro A
  induction A with
  | nil => intro rest _; rfl
  | cons p t ih =>
    intro rest hall
    obtain ⟨sc0, rec0⟩ := p
    rw [List.cons_append, expandLoop_skip (hall (sc0, rec0) (List.mem_cons_self _ _))]
    exact ih rest (fun p hp => hall p (List.mem_cons_of_mem _ hp))

theorem expandLoop_hit {s : Shortener} {q dec : List Char} {sc : List Char} {rec : RecordData}
    {rest : List (List Char × RecordData)} {u : List Char}
    (hdec : _decompress q rec.huffman_codes = .ok dec)
    (hl : dlookup dec s.code_to_url = some u) (hu : u = rec.original_url) :
    expandLoop s q ((sc, rec) :: rest) = some u := by
  simp only [expandLoop, hdec, hl]
  rw [if_pos hu]

theorem expand_none_of_no_match {s : Shortener} {q : List Char}
    (h : ∀ p ∈ s.compressed_data, recordMatches s q p.2 = false) :
    expand_url s q = none := by
  unfold expand_url
  have := expandLoop_append_skip s.compressed_data [] h
  simpa using this

theorem expand_after_fresh_shorten {env : Env} {s : Shortener} {url sc cc : List Char}
    {s2 : Shortener} (hwf : EnvWF env)
    (hfresh : dlookup url s.url_to_code = none)
    (hok : shorten_url env s url = (.ok (sc, cc), s2))
    (hpad : padFree sc = true)
    (hprior : ∀ p ∈ s.compressed_data, recordMatches s2 cc p.2 = false) :
    expand_url s2 cc = some url := by
  obtain ⟨tb, hgen, hcomp, hs2⟩ := shorten_fresh_ok hfresh hok
  have hscne : sc ≠ [] := gen_sc_ne_nil hwf hgen
  obtain ⟨bits, hjoin, htb, hdec⟩ := compress_decompress hscne hcomp
  subst htb
  have hbits0 : bits.length % 8 = 0 := by
    unfold padFree at hpad
    simp only [hjoin] at hpad
    simpa using hpad
  have hdec' : _decompress cc (build_huffman_tree sc) = .ok sc := by
    rw [hdec]
    have hz : (8 - bits.length % 8) % 8 = 0 := by omega
    rw [hz]
    simp [decodeLoop]
  obtain ⟨A, B, hAB, hA⟩ :=
    @dictSet_eq_append (List Char) RecordData _ sc s.compressed_data
      (⟨cc, build_huffman_tree sc, url⟩ : RecordData)
  have hcu : dlookup sc s2.code_to_url = some url := by
    rw [hs2]
    exact dlookup_dictSet_self _ _ _
  have hcd : s2.compressed_data =
      dictSet s.compressed_data sc ⟨cc, build_huffman_tree sc, url⟩ := by
    rw [hs2]
  unfold expand_url
  rw [hcd, hAB, expandLoop_append_skip A _ ?_]
  · exact expandLoop_hit hdec' hcu rfl
  · intro p hp
    have : p ∈ s.compressed_data := hA p hp
    exact hprior p this

/-! ## Single-symbol helper lemmas -/

theorem incr_same (c : Char) (m : Nat) : incr [(c, m)] c = [(c, m + 1)] := by
  have h1 : dlookup c [(c, m)] = some m := by
    show (if c = c then some m else dlookup c ([] : List (Char × Nat))) = some m
    rw [if_pos rfl]
  unfold incr
  simp only [h1]
  unfold dictSet
  rw [if_pos (by simp [h1])]
  simp

theorem counter_replicate (c : Char) (n : Nat) (hn : 0 < n) :
    counter (List.replicate n c) = [(c, n)] := by
  have H : ∀ k m, (List.replicate k c).foldl incr [(c, m)] = [(c, m + k)] := by
    intro k
    induction k with
    | zero =>
      intro m
      simp
    | succ k ih =>
      intro m
      rw [List.replicate_succ, List.foldl_cons, incr_same, ih]
      congr 2
      omega
  obtain ⟨n', rfl⟩ : ∃ n', n = n' + 1 := ⟨n - 1, by omega⟩
  unfold counter
  rw [List.replicate_succ, List.foldl_cons]
  have h0 : incr [] c = [(c, 1)] := rfl
  rw [h0, H n' 1]
  congr 2
  omega

theorem joinCodes_single (c : Char) : ∀ n : Nat,
    joinCodes [(c, ['0'])] (List.replicate n c) = .ok (List.replicate n '0') := by
  intro n
  induction n with
  | zero => rfl
  | succ n ih =>
    have h1 : dlookup c [(c, (['0'] : List Char))] = some ['0'] := by
      show (if c = c then some ['0'] else dlookup c ([] : List (Char × List Char)))
        = some ['0']
      rw [if_pos rfl]
    rw [List.replicate_succ, joinCodes, h1, ih]
    rw [List.replicate_succ]
    rfl

theorem decodeLoop_zeros (c : Char) : ∀ m : Nat,
    decodeLoop [((['0'] : List Char), c)] [] (List.replicate m '0') = List.replicate m c := by
  intro m
  induction m with
  | zero => rfl
  | succ m ih =>
    have h1 : dlookup (([] : List Char) ++ ['0']) [((['0'] : List Char), c)] = some c := by
      show (if (['0'] : List Char) = ['0'] then some c
        else dlookup (['0'] : List Char) ([] : List (List Char × Char))) = some c
      rw [if_pos rfl]
    rw [List.replicate_succ, decodeLoop_step_some h1, ih, List.replicate_succ]

/-! ## Concrete test fixtures

The environments fix the sha256 digest (an all-zero hexdigest, so the
deterministic seed part of every candidate short code is `"AAAAAAAA"`) and
the random 4-letter suffix. -/

/-- Environment whose entropy source always draws the suffix `"aaaa"`. -/
def envA : Env := ⟨fun _ => List.replicate 64 '0', fun _ => ['a', 'a', 'a', 'a']⟩

/-- Environment whose entropy source always draws the suffix `"bcbc"`. -/
def envB : Env := ⟨fun _ => List.replicate 64 '0', fun _ => ['b', 'c', 'b', 'c']⟩

/-- A store holding one record whose code table maps `'x'` to `"0"`. -/
def sWitness : Shortener :=
  ⟨[],
   [(['x', 'x', 'x', 'x', 'x', 'x', 'x', 'x'], ['u'])],
   [(['x', 'x', 'x', 'x', 'x', 'x', 'x', 'x'],
     ⟨['A', 'A', '=', '='], [('x', ['0'])], ['u']⟩)],
   10⟩

/-- A store already holding the single short code `"AAAAAAAAaaaa"` that
`envA` can generate for the URL `"u"`. -/
def s8 : Shortener :=
  ⟨[], [(['A', 'A', 'A', 'A', 'A', 'A', 'A', 'A', 'a', 'a', 'a', 'a'], ['v'])], [], 10⟩

/-! ## The claims -/

/-- Counterexample to C1 as stated: compressing `"aaaa"` yields the table
`{a: "0"}` and the encoded text `"AA=="`, but decompressing gives
`"aaaaaaaa"` — the zero padding added to reach a byte boundary decodes to
four spurious `'a'`s, so the round-trip law fails. -/
theorem c1_counterexample :
    _compress ['a', 'a', 'a', 'a'] = .ok (['A', 'A', '=', '='], [('a', ['0'])]) ∧
    _decompress ['A', 'A', '=', '='] [('a', ['0'])] =
      .ok ['a', 'a', 'a', 'a', 'a', 'a', 'a', 'a'] ∧
    (['a', 'a', 'a', 'a', 'a', 'a', 'a', 'a'] : List Char) ≠ ['a', 'a', 'a', 'a'] :=
  ⟨rfl, rfl, by decide⟩

/-- C1 (amended): for every non-empty string `s`, if `_compress s` returns
`(encoded, codeTable)` then decompressing returns a string of which `s` is a
prefix; it returns exactly `s` whenever the concatenated code string has
length a multiple of 8 (no padding bits). -/
theorem c1_roundtrip_amended (s : List Char) (hne : s ≠ []) (enc : List Char)
    (tb : List (Char × List Char)) (h : _compress s = .ok (enc, tb)) :
    ∃ r, _decompress enc tb = .ok r ∧ s <+: r ∧ (padFree s = true → r = s) := by
  obtain ⟨bits, hjoin, htb, hdec⟩ := compress_decompress hne h
  subst htb
  refine ⟨_, hdec, List.prefix_append _ _, ?_⟩
  intro hpad
  have hbits0 : bits.length % 8 = 0 := by
    unfold padFree at hpad
    simp only [hjoin] at hpad
    simpa using hpad
  have hz : (8 - bits.length % 8) % 8 = 0 := by omega
  rw [hz]
  simp [decodeLoop]

/-- Witness for the amended C1 at `s = "aaaaaaaa"` (eight symbols, so the
code string has length 8 and no padding is added). -/
theorem c1_roundtrip_amended_witness :
    ∃ r, _decompress ['A', 'A', '=', '='] [('a', ['0'])] = .ok r ∧
      List.replicate 8 'a' <+: r ∧
      (padFree (List.replicate 8 'a') = true → r = List.replicate 8 'a') :=
  c1_roundtrip_amended (List.replicate 8 'a') (by decide) ['A', 'A', '=', '=']
    [('a', ['0'])] rfl

/-- Counterexample to C2 as stated: with the digest fixed to all zeros and
the suffix draw `"aaaa"`, shortening `"u"` from the empty store succeeds
with short code `"AAAAAAAAaaaa"` and compressed code `"_wA="`, yet
`expand_url` on the resulting store returns `none` — the four padding bits
decode to four spurious `'a'`s, so the verification scan never matches. -/
theorem c2_counterexample :
    (shorten_url envA Shortener.init ['u']).1 =
      .ok (['A', 'A', 'A', 'A', 'A', 'A', 'A', 'A', 'a', 'a', 'a', 'a'],
        ['_', 'w', 'A', '=']) ∧
    expand_url (shorten_url envA Shortener.init ['u']).2 ['_', 'w', 'A', '='] = none :=
  ⟨rfl, rfl⟩

/-- C2 (amended): for a URL not yet stored, if `shorten_url` succeeds with
`(sc, cc)`, the concatenated code string of `sc` needs no padding, and no
record already in the store verifies against `cc`, then `expand_url cc` on
the resulting store returns the URL. -/
theorem c2_expand_inverse_amended {env : Env} {s : Shortener} {url sc cc : List Char}
    {s2 : Shortener} (hwf : EnvWF env)
    (hfresh : dlookup url s.url_to_code = none)
    (hok : shorten_url env s url = (.ok (sc, cc), s2))
    (hpad : padFree sc = true)
    (hprior : ∀ p ∈ s.compressed_data, recordMatches s2 cc p.2 = false) :
    expand_url s2 cc = some url :=
  expand_after_fresh_shorten hwf hfresh hok hpad hprior

/-- Witness for the amended C2: with suffix draw `"bcbc"` the short code
`"AAAAAAAAbcbc"` has a 16-bit code string (no padding), and expanding its
compressed code `"_xE="` returns `"u"`. -/
theorem c2_expand_inverse_amended_witness :
    expand_url (shorten_url envB Shortener.init ['u']).2 ['_', 'x', 'E', '='] =
      some ['u'] :=
  @c2_expand_inverse_amended envB Shortener.init ['u']
    ['A', 'A', 'A', 'A', 'A', 'A', 'A', 'A', 'b', 'c', 'b', 'c']
    ['_', 'x', 'E', '='] (shorten_url envB Shortener.init ['u']).2
    (fun _ => rfl) rfl rfl rfl
    (by
      intro p hp
      exact absurd hp (List.not_mem_nil p))

/-- C3: after a successful `shorten_url` call that returned `res` in state
`s2`, calling `shorten_url` again on the same URL (under any environment —
the early-return path consumes no entropy) returns the same `res` pair and
leaves the state `s2` exactly unchanged, creating no second record. -/
theorem c3_shorten_idempotent {env env' : Env} {s : Shortener} {url : List Char}
    {res : List Char × List Char} {s2 : Shortener}
    (h : shorten_url env s url = (.ok res, s2)) :
    shorten_url env' s2 url = (.ok res, s2) := by
  obtain ⟨hu, info, hinfo, hcomp⟩ := shorten_ok_state h
  have hk := @shorten_known env' s2 url res.1 info hu hinfo
  rw [hk, hcomp]

/-- Witness for C3: a second `shorten_url` of `"u"` returns the pair of the
first call and the untouched state. -/
theorem c3_shorten_idempotent_witness :
    shorten_url envA (shorten_url envA Shortener.init ['u']).2 ['u'] =
      (.ok (['A', 'A', 'A', 'A', 'A', 'A', 'A', 'A', 'a', 'a', 'a', 'a'],
        ['_', 'w', 'A', '=']),
       (shorten_url envA Shortener.init ['u']).2) :=
  @c3_shorten_idempotent envA envA Shortener.init ['u']
    (['A', 'A', 'A', 'A', 'A', 'A', 'A', 'A', 'a', 'a', 'a', 'a'],
     ['_', 'w', 'A', '='])
    (shorten_url envA Shortener.init ['u']).2 rfl

/-- Counterexample to C4 as stated: for `"aaaa"` the generated table is
indeed `{a: "0"}`, but compress followed by decompress returns `"aaaaaaaa"`,
not the original string — the implicit zero padding decodes to spurious
symbols, so the claimed round trip fails on the spec's own example. -/
theorem c4_counterexample :
    build_huffman_tree ['a', 'a', 'a', 'a'] = [('a', ['0'])] ∧
    _compress ['a', 'a', 'a', 'a'] = .ok (['A', 'A', '=', '='], [('a', ['0'])]) ∧
    _decompress ['A', 'A', '=', '='] [('a', ['0'])] = .ok (List.replicate 8 'a') ∧
    List.replicate 8 'a' ≠ ['a', 'a', 'a', 'a'] :=
  ⟨rfl, rfl, rfl, by decide⟩

/-- C4 (amended): for every repetition of one character, the generated
CodeTable is exactly the one-entry table mapping that character to `"0"`,
and compress followed by decompress returns the character repeated to the
next multiple of 8 — which equals the original string exactly when the
length is a multiple of 8. -/
theorem c4_single_symbol_amended (c : Char) (n : Nat) (hn : 0 < n) :
    build_huffman_tree (List.replicate n c) = [(c, ['0'])] ∧
    ∃ enc, _compress (List.replicate n c) = .ok (enc, [(c, ['0'])]) ∧
      _decompress enc [(c, ['0'])] = .ok (List.replicate (8 * ((n + 7) / 8)) c) := by
  have hne : List.replicate n c ≠ [] := by
    intro hcon
    rw [List.replicate_eq_nil_iff] at hcon
    omega
  have hcount := counter_replicate c n hn
  have hbuild : build_huffman_tree (List.replicate n c) = [(c, ['0'])] := by
    obtain ⟨n', rfl⟩ : ∃ n', n = n' + 1 := ⟨n - 1, by omega⟩
    have hL : (counter (List.replicate (n' + 1) c)).length = 1 := by
      rw [hcount]
      rfl
    rw [List.replicate_succ] at hL ⊢
    exact build_single_eq hL
  refine ⟨hbuild, ?_⟩
  obtain ⟨⟨enc, tb⟩, hcomp⟩ := compress_ok_of_ne_nil hne
  obtain ⟨bits, hjoin, htb, hdec⟩ := compress_decompress hne hcomp
  rw [hbuild] at htb
  subst htb
  refine ⟨enc, hcomp, ?_⟩
  have hbits : bits = List.replicate n '0' := by
    have h2 := joinCodes_single c n
    rw [hjoin] at h2
    injection h2
  subst hbits
  rw [hdec]
  rw [show reverseCodes [(c, ['0'])] = [((['0'] : List Char), c)] from rfl]
  rw [decodeLoop_zeros]
  rw [← List.replicate_add]
  have hcnt : n + (8 - (List.replicate n '0').length % 8) % 8 = 8 * ((n + 7) / 8) := by
    rw [List.length_replicate]
    omega
  rw [hcnt]

/-- Witness for the amended C4 at `c = 'a'`, `n = 4`. -/
theorem c4_single_symbol_amended_witness :
    build_huffman_tree (List.replicate 4 'a') = [('a', ['0'])] ∧
    ∃ enc, _compress (List.replicate 4 'a') = .ok (enc, [('a', ['0'])]) ∧
      _decompress enc [('a', ['0'])] = .ok (List.replicate (8 * ((4 + 7) / 8)) 'a') :=
  c4_single_symbol_amended 'a' 4 (by decide)

/-- C5: for every non-empty input string, the CodeTable produced by
`_build_huffman_tree` is prefix-free — no code in the table is a string
prefix of a different code in the same table (pairwise, in both
directions). -/
theorem c5_prefix_free (data : List Char) (hne : data ≠ []) :
    (build_huffman_tree data).Pairwise (fun p q => ¬ p.2 <+: q.2 ∧ ¬ q.2 <+: p.2) :=
  (build_table_spec hne).2.1

/-- Witness for C5 at `data = "ab"`. -/
theorem c5_prefix_free_witness :
    (build_huffman_tree ['a', 'b']).Pairwise
      (fun p q => ¬ p.2 <+: q.2 ∧ ¬ q.2 <+: p.2) :=
  c5_prefix_free ['a', 'b'] (by decide)

/-- C6: soundness of `expand_url` over every store state (in particular
every reachable one): whenever it returns a URL `u` for query `q`, some
stored record verifies it — decompressing `q` under that record's own
CodeTable yields a short code that `code_to_url` maps to `u`, and `u` is
that record's own original URL.  A `some` answer is therefore never an
unverified guess; in every other situation the scan returns `none`
(NotFound). -/
theorem c6_expand_sound (s : Shortener) (q u : List Char)
    (h : expand_url s q = some u) :
    ∃ sc rec, (sc, rec) ∈ s.compressed_data ∧
      ∃ dec, _decompress q rec.huffman_codes = .ok dec ∧
        dlookup dec s.code_to_url = some u ∧ rec.original_url = u :=
  expandLoop_some h

/-- Witness for C6 on a concrete store where `expand_url` answers
`some "u"`. -/
theorem c6_expand_sound_witness :
    ∃ sc rec, (sc, rec) ∈ sWitness.compressed_data ∧
      ∃ dec, _decompress ['A', 'A', '=', '='] rec.huffman_codes = .ok dec ∧
        dlookup dec sWitness.code_to_url = some ['u'] ∧ rec.original_url = ['u'] :=
  c6_expand_sound sWitness ['A', 'A', '=', '='] ['u'] rfl

/-- Counterexample to C7 as stated: decoding `"_w=="` (the byte `0xff`,
bit string `"11111111"`) against the table `{c: "0"}` makes the running
buffer grow to length 8 — far beyond the longest code, length 1 — without
ever matching, while bits remain; the claim demands a `DecodeError`, but
`_decompress` returns successfully with the empty result, silently
discarding the whole buffer. -/
theorem c7_counterexample :
    _decompress ['_', 'w', '=', '='] [('c', ['0'])] = .ok [] :=
  rfl

/-- C7 (amended): for every text and table, `_decompress` fails exactly when
the base64 decoding step (the non-strict `base64.urlsafe_b64decode`, which
itself tolerates stray characters and data after complete padding, raising
only when its data characters end mid-quad) fails; the decode loop itself
never raises, so a running buffer that grows beyond the longest code without
matching is silently discarded at end of input instead of raising. -/
theorem c7_decode_error_amended (q : List Char) (tb : List (Char × List Char)) :
    ((∃ bs, b64decodeE q = .ok bs) → ∃ r, _decompress q tb = .ok r) ∧
    (b64decodeE q = .error () → _decompress q tb = .error ()) := by
  constructor
  · rintro ⟨bs, hbs⟩
    exact ⟨_, decompress_of_decode hbs⟩
  · intro h
    exact decompress_of_decode_error h

/-- Witness for the amended C7 at `q = "AA=="` with an empty table. -/
theorem c7_decode_error_amended_witness :
    ∃ r, _decompress ['A', 'A', '=', '='] [] = .ok r :=
  (c7_decode_error_amended ['A', 'A', '=', '='] []).1 ⟨[0], rfl⟩

/-- C8: if the URL is new and every one of the `max_collision_attempts`
candidate codes drawn by the generator is already a key of `code_to_url`,
`shorten_url` fails with the exhaustion error (`ValueError`, the spec's
`CodeGenerationExhausted`) and the state is returned unchanged; moreover
(given that each entropy draw has the stdlib length 4) every failing
`shorten_url` leaves all three mappings exactly as they were.  `expand_url`
performs no state update in the source at all, so its preservation is
definitional. -/
theorem c8_exhaustion_atomic (env : Env) (s : Shortener) (url : List Char)
    (hwf : EnvWF env) :
    ((dlookup url s.url_to_code = none) →
      (∀ j, j < s.max_collision_attempts →
        (dlookup (seedPart env url ++ env.suffix j) s.code_to_url).isSome) →
      shorten_url env s url = (.error (), s)) ∧
    (∀ (u : List Char) (e : Unit) (s2 : Shortener),
      shorten_url env s u = (.error e, s2) → s2 = s) :=
  ⟨fun hfresh hall => shorten_exhaust hfresh hall,
   fun _ _ _ h => shorten_error_state hwf h⟩

/-- Witness for C8: `envA` always draws the suffix `"aaaa"`, the store
`s8` already contains the only candidate `"AAAAAAAAaaaa"`, so all 10
attempts collide and `shorten_url` fails leaving `s8` unchanged. -/
theorem c8_exhaustion_atomic_witness :
    shorten_url envA s8 ['u'] = (.error (), s8) :=
  (c8_exhaustion_atomic envA s8 ['u'] (fun _ => rfl)).1 rfl (by decide)

/-- C9: `expand_url` is a total function of the store and the query (the
`try/except` around `_decompress` swallows the only exception source), and
whenever no stored record verifies against the query it returns `none`
(NotFound) — in particular for every query on every store state, arbitrary
strings included. -/
theorem c9_expand_unknown_none (s : Shortener) (q : List Char)
    (h : ∀ p ∈ s.compressed_data, recordMatches s q p.2 = false) :
    expand_url s q = none :=
  expand_none_of_no_match h

/-- Witness for C9: expanding an arbitrary string on the fresh store. -/
theorem c9_expand_unknown_none_witness : expand_url Shortener.init ['z'] = none :=
  c9_expand_unknown_none Shortener.init ['z']
    (by
      intro p hp
      exact absurd hp (List.not_mem_nil p))

/-- C10: completeness of the code table — every character of a non-empty
input has an entry in the table returned by `_build_huffman_tree`, and that
entry is a non-empty string of binary digits; hence the per-character
lookup `huffman_codes[char]` in `_compress` never raises `KeyError`. -/
theorem c10_table_complete (data : List Char) (hne : data ≠ []) (c : Char)
    (hc : c ∈ data) :
    ∃ code, dlookup c (build_huffman_tree data) = some code ∧ code ≠ [] ∧
      ∀ b ∈ code, isBit b = true := by
  obtain ⟨hlookup, hpw, hprops, hkeys⟩ := build_table_spec hne
  obtain ⟨code, hcode⟩ := hlookup c hc
  exact ⟨code, hcode, (hprops _ (dlookup_mem hcode)).1,
    (hprops _ (dlookup_mem hcode)).2⟩

/-- Witness for C10 at `data = "ab"`, `c = 'a'`. -/
theorem c10_table_complete_witness :
    ∃ code, dlookup 'a' (build_huffman_tree ['a', 'b']) = some code ∧ code ≠ [] ∧
      ∀ b ∈ code, isBit b = true :=
  c10_table_complete ['a', 'b'] (by decide) 'a' (by decide)
